import Mathlib

/-!
Verification of the list-of-lists sparse matrix storage
(src/ext/nmatrix/storage/list.cpp).

The storage is an n-dimensional sparse matrix kept as nested sorted
singly-linked lists of key/value nodes.  A node's value is either a
scalar (at the leaf axis) or a nested list (at every other axis).
We embed the C data structure as `List (Nat × NodeVal α)` where
`NodeVal` is the scalar-or-sublist payload; the C code dispatches on a
`rec` counter instead of on the payload tag, so every embedded function
takes the same counter and treats a tag that cannot occur at the given
depth as junk (those branches are unreachable for depth-correct
storages, captured by the `lsOK` predicate below).
-/

set_option maxHeartbeats 1000000
set_option linter.unusedVariables false

/-- Payload of a list node: a scalar at leaf depth, a sublist elsewhere
(`NODE::val` in the C source, which is an untyped pointer cast according
to the recursion depth). -/
inductive NodeVal (α : Type) where
  | scal : α → NodeVal α
  | sub : List (Nat × NodeVal α) → NodeVal α

/-- A list of key/value nodes (`LIST` in the C source).  Keys are the
axis coordinates. -/
abbrev NList (α : Type) : Type := List (Nat × NodeVal α)

/-- Modulus of the C `size_t` type (64 bits). -/
def SZ : Nat := 18446744073709551616

/-- Wrapping `size_t` subtraction, as performed by expressions such as
`curr->key - offset` in the source. -/
def wsub (a b : Nat) : Nat := (((a : Int) - (b : Int)) % (SZ : Int)).toNat

/-- Bound used by the well-formedness predicates: keys, offsets, shapes
and coordinates of well-formed storages stay below 2^30, so no `size_t`
subtraction in a traversal of a well-formed storage ever wraps and the
`int` conversion in `slice_copy` never overflows. -/
def KB : Nat := 1073741824

theorem wsub_of_le {a b : Nat} (hba : b ≤ a) (ha : a < SZ) : wsub a b = a - b := by
  simp only [SZ] at ha ⊢
  unfold wsub SZ
  rw [Int.emod_eq_of_lt (by omega) (by omega)]
  omega

/-- Ordered insert-or-replace.  Modelled from the spec, section 4.1:
`insert(key, value)` performs an in-order insert if the key is absent,
else replaces the stored value (the implementation lives in
util/sl_list.h, which is not part of the sources under verification). -/
def list_insert {β : Type} : List (Nat × β) → Nat → β → List (Nat × β)
  | [], k, v => [(k, v)]
  | (k2, v2) :: t, k, v =>
    if k < k2 then (k, v) :: (k2, v2) :: t
    else if k = k2 then (k, v) :: t
    else (k2, v2) :: list_insert t k v

/-- Find the value stored at a key.  Modelled from the spec, section 4.1:
linear scan while the cursor key is below the target, then an equality
check (util/sl_list.h `list::find`). -/
def findKey {α : Type} : NList α → Nat → Option (NodeVal α)
  | [], _ => none
  | (k, v) :: t, key =>
    if k < key then findKey t key
    else if k = key then some v else none

/-- Skip the nodes whose key is below the offset: the
`while (curr && curr->key < offset) curr = curr->next;` entry loop that
every traversal in the source starts with. -/
def skipBelow {β : Type} (off : Nat) : List (Nat × β) → List (Nat × β)
  | [] => []
  | (k, v) :: t => if k < off then skipBelow off t else (k, v) :: t

/-- Drop the whole rest of the walk when the head key is out of range:
the `if (curr && curr->key - offset >= shape) curr = NULL;` checks of
the source (the subtraction is wrapping `size_t` arithmetic). -/
def trimHigh {β : Type} (off sh : Nat) : List (Nat × β) → List (Nat × β)
  | [] => []
  | (k, v) :: t => if sh ≤ wsub k off then [] else (k, v) :: t

theorem trimHigh_length_le {β : Type} (off sh : Nat) (l : List (Nat × β)) :
    (trimHigh off sh l).length ≤ l.length := by
  cases l with
  | nil => simp [trimHigh]
  | cons h t =>
    obtain ⟨k, v⟩ := h
    simp only [trimHigh]
    split <;> simp

/-- Entry trimming used (with the appropriate offset and shape) at the
start of every recursive traversal in the source. -/
def entryTrim {β : Type} (off sh : Nat) (l : List (Nat × β)) : List (Nat × β) :=
  trimHigh off sh (skipBelow off l)

mutual

/-- Depth correctness of a node payload: at remaining depth 0 the value
is a scalar, at depth d+1 it is a sublist of depth-d values. -/
def ntOK {α : Type} : Nat → NodeVal α → Bool
  | 0, .scal _ => true
  | 0, .sub _ => false
  | _ + 1, .scal _ => false
  | d + 1, .sub l => lsOK d l

/-- Depth correctness of every node of a list. -/
def lsOK {α : Type} : Nat → NList α → Bool
  | _, [] => true
  | d, p :: t => ntOK d p.2 && lsOK d t

end

mutual

/-- Keys strictly increasing in every (nested) list of a payload. -/
def ntSorted {α : Type} : NodeVal α → Bool
  | .scal _ => true
  | .sub l => lsSorted l

/-- Keys strictly increasing at this level and recursively below. -/
def lsSorted {α : Type} : NList α → Bool
  | [] => true
  | [p] => ntSorted p.2
  | p :: q :: t => decide (p.1 < q.1) && ntSorted p.2 && lsSorted (q :: t)

end

mutual

/-- Every key of a payload is below `KB`. -/
def ntBounded {α : Type} : NodeVal α → Bool
  | .scal _ => true
  | .sub l => lsBounded l

/-- Every key of a list (at every depth) is below `KB`. -/
def lsBounded {α : Type} : NList α → Bool
  | [] => true
  | (k, v) :: t => decide (k < KB) && ntBounded v && lsBounded t

end

mutual

/-- No stored leaf equals the given default value. -/
def ntNoDef {α : Type} [DecidableEq α] (dflt : α) : NodeVal α → Bool
  | .scal v => decide (v ≠ dflt)
  | .sub l => lsNoDef dflt l

/-- No stored leaf of the list equals the given default value. -/
def lsNoDef {α : Type} [DecidableEq α] (dflt : α) : NList α → Bool
  | [] => true
  | p :: t => ntNoDef dflt p.2 && lsNoDef dflt t

end

mutual

/-- No node owns an empty sublist. -/
def ntNoEmpty {α : Type} : NodeVal α → Bool
  | .scal _ => true
  | .sub l => !l.isEmpty && lsNoEmpty l

/-- No node of the list (at any depth) owns an empty sublist. -/
def lsNoEmpty {α : Type} : NList α → Bool
  | [] => true
  | p :: t => ntNoEmpty p.2 && lsNoEmpty t

end

mutual

/-- Stored leaves of a payload, as (key path, value) pairs. -/
def ntLeaves {α : Type} (path : List Nat) : NodeVal α → List (List Nat × α)
  | .scal a => [(path, a)]
  | .sub l => lsLeaves path l

/-- Stored leaves of a list, each with the full key path from the given
prefix down to the leaf. -/
def lsLeaves {α : Type} (path : List Nat) : NList α → List (List Nat × α)
  | [] => []
  | (k, v) :: t => ntLeaves (path ++ [k]) v ++ lsLeaves path t

end

/-- Modelled from the spec: the external dtype enumeration (data/data.h,
outside the sources under verification).  The spec (sections 3, 6, 9)
describes a closed enumeration of byte, integer, float, complex and
rational dtypes plus a host-object dtype; constructors are listed in the
declaration order of the external enumeration. -/
inductive Dtype where
  | byte | int8 | int16 | int32 | int64
  | float32 | float64 | complex64 | complex128
  | rational32 | rational64 | rational128 | rubyobj
deriving DecidableEq

/-- Modelled from the spec: numeric value of a dtype tag (its position
in the external enumeration), which is what an expression using a
`dtype_t` in integer context evaluates to. -/
def dtypeTag : Dtype → Nat
  | .byte => 0 | .int8 => 1 | .int16 => 2 | .int32 => 3 | .int64 => 4
  | .float32 => 5 | .float64 => 6 | .complex64 => 7 | .complex128 => 8
  | .rational32 => 9 | .rational64 => 10 | .rational128 => 11 | .rubyobj => 12

/-- Modelled from the spec: the dtype contract (section 6) provides a
function mapping each dtype to its byte size (`DTYPE_SIZES` in the
external collaborator). -/
def DTYPE_SIZES : Dtype → Nat
  | .byte => 1 | .int8 => 1 | .int16 => 2 | .int32 => 4 | .int64 => 8
  | .float32 => 4 | .float64 => 8 | .complex64 => 8 | .complex128 => 16
  | .rational32 => 4 | .rational64 => 8 | .rational128 => 16 | .rubyobj => 8

/-- Result of `memcmp(a, b, n) == 0`: the first `n` bytes agree (scalar
values are embedded as byte lists). -/
def memcmp_eq (a b : List Nat) (n : Nat) : Bool := a.take n == b.take n

/-- The `LIST_STORAGE` struct.  `rows` holds the value of the top-level
list; for a view it is the (shared) owner list, matching the C code
where `ns->rows = s->rows` aliases the owner's list.  `srcSelf` records
whether `src == self` (owning storage) or the storage is a view whose
`src` points at its one owner (every view built by `ref` points directly
at the terminal owner). -/
structure LStor (α : Type) where
  dim : Nat
  dtype : Dtype
  shape : List Nat
  offset : List Nat
  rows : NList α
  default_val : α
  srcSelf : Bool

/-- The `RecurseData` traversal helper: reference shape, effective
offsets (summed along the `src` chain: zero for an owner, the view's own
offsets for a view, since `ref` always composes offsets at construction)
and the default value.  Arrays are axis-indexed; the per-recursion-depth
accessors translate `rec` to axis `dim - rec - 1` as in the source. -/
structure RecData (α : Type) where
  dim : Nat
  shape : List Nat
  offsets : List Nat
  init : α

/-- Accessor `RecurseData::offset(rec)`. -/
def RecData.off {α : Type} (S : RecData α) (rec : Nat) : Nat :=
  S.offsets.getD (S.dim - rec - 1) 0

/-- Accessor `RecurseData::ref_shape(rec)`. -/
def RecData.shp {α : Type} (S : RecData α) (rec : Nat) : Nat :=
  S.shape.getD (S.dim - rec - 1) 0

/-- Construction of `RecurseData` from a storage: walk the `src` chain
accumulating offsets.  For an owner the loop body never runs (offsets
stay zero); for a view it runs once, adding the view's offsets, because
views point directly at their owner. -/
def RecData.ofStorage {α : Type} (s : LStor α) : RecData α :=
  { dim := s.dim
    shape := s.shape
    offsets := if s.srcSelf then List.replicate s.dim 0 else s.offset
    init := s.default_val }

/-- Loop of `eqeq_empty_r`: every surviving node's payload must pass the
check; advancing applies the source's end-of-iteration out-of-range
trimming to the cursor. -/
def eqemptyLoop {σ : Type} (f : σ → Bool) (off sh : Nat) : List (Nat × σ) → Bool
  | [] => true
  | (k, v) :: t => f v && eqemptyLoop f off sh (trimHigh off sh t)
termination_by l => l.length
decreasing_by
have := trimHigh_length_le off sh t
simp only [List.length_cons]
omega

/-- Recursive helper `eqeq_empty_r`: one side of the comparison has no
stored nodes, so every in-range stored value of the other side must
equal that side's default (`veq` is the comparison against it). -/
def eqeq_empty_r {α : Type} (veq : α → Bool) (S : RecData α) : Nat → NList α → Bool
  | 0, l =>
    eqemptyLoop (fun v => match v with | .scal a => veq a | .sub _ => false)
      (S.off 0) (S.shp 0) (entryTrim (S.off 0) (S.shp 0) l)
  | rec + 1, l =>
    eqemptyLoop (fun v => match v with | .sub sl => eqeq_empty_r veq S rec sl | .scal _ => false)
      (S.off (rec + 1)) (S.shp (rec + 1)) (entryTrim (S.off (rec + 1)) (S.shp (rec + 1)) l)

/-- Merge loop of `eqeq_r` at a non-leaf depth (`rec > 0`).  The side
with the smaller reference index advances and its subtree is compared
against the other side's default (`cL`/`cR`); at equal indices both
advance (`cLR`).  The Boolean argument is the `compared` flag of the
source; on exit with no comparison performed the default values are
compared (`fin`).  Cursor trimming at the end of each iteration is
applied to the arguments of the recursive call. -/
def eqnodeLoop {α β : Type} (cL : NodeVal α → Bool) (cR : NodeVal β → Bool)
    (cLR : NodeVal α → NodeVal β → Bool) (loff roff lsh rsh : Nat) (fin : Bool) :
    NList α → NList β → Bool → Bool
  | [], [], c => if c then true else fin
  | (lk, lv) :: lt, [], _ =>
    cL lv && eqnodeLoop cL cR cLR loff roff lsh rsh fin (trimHigh loff lsh lt) [] true
  | [], (rk, rv) :: rt, _ =>
    cR rv && eqnodeLoop cL cR cLR loff roff lsh rsh fin [] (trimHigh roff rsh rt) true
  | (lk, lv) :: lt, (rk, rv) :: rt, _ =>
    if wsub lk loff < wsub rk roff then
      cL lv && eqnodeLoop cL cR cLR loff roff lsh rsh fin
        (trimHigh loff lsh lt) (trimHigh roff rsh ((rk, rv) :: rt)) true
    else if wsub rk roff < wsub lk loff then
      cR rv && eqnodeLoop cL cR cLR loff roff lsh rsh fin
        (trimHigh loff lsh ((lk, lv) :: lt)) (trimHigh roff rsh rt) true
    else
      cLR lv rv && eqnodeLoop cL cR cLR loff roff lsh rsh fin
        (trimHigh loff lsh lt) (trimHigh roff rsh rt) true
termination_by l r _ => l.length + r.length
decreasing_by
all_goals
  (try have h1 := trimHigh_length_le loff lsh lt)
  (try have h2 := trimHigh_length_le roff rsh rt)
  (try have h3 := trimHigh_length_le loff lsh ((lk, lv) :: lt))
  (try have h4 := trimHigh_length_le roff rsh ((rk, rv) :: rt))
  simp only [List.length_cons, List.length_nil] at *
  omega

/-- Merge loop of `eqeq_r` at leaf depth (`rec == 0`).  Identical merge
structure, but compares scalar values; the source additionally re-trims
both cursors against the LEFT reference shape at the top of each
iteration (lines 1002-1003), which for the first iteration coincides
with the entry trimming and is folded into the recursive-call arguments
for the later ones. -/
def eqleafLoop {α β : Type} (cL : NodeVal α → Bool) (cR : NodeVal β → Bool)
    (cLR : NodeVal α → NodeVal β → Bool) (loff roff lsh rsh : Nat) (fin : Bool) :
    NList α → NList β → Bool → Bool
  | [], [], c => if c then true else fin
  | (lk, lv) :: lt, [], _ =>
    cL lv && eqleafLoop cL cR cLR loff roff lsh rsh fin (trimHigh loff lsh lt) [] true
  | [], (rk, rv) :: rt, _ =>
    cR rv && eqleafLoop cL cR cLR loff roff lsh rsh fin []
      (trimHigh roff lsh (trimHigh roff rsh rt)) true
  | (lk, lv) :: lt, (rk, rv) :: rt, _ =>
    if wsub lk loff < wsub rk roff then
      cL lv && eqleafLoop cL cR cLR loff roff lsh rsh fin
        (trimHigh loff lsh lt) (trimHigh roff lsh (trimHigh roff rsh ((rk, rv) :: rt))) true
    else if wsub rk roff < wsub lk loff then
      cR rv && eqleafLoop cL cR cLR loff roff lsh rsh fin
        (trimHigh loff lsh ((lk, lv) :: lt)) (trimHigh roff lsh (trimHigh roff rsh rt)) true
    else
      cLR lv rv && eqleafLoop cL cR cLR loff roff lsh rsh fin
        (trimHigh loff lsh lt) (trimHigh roff lsh (trimHigh roff rsh rt)) true
termination_by l r _ => l.length + r.length
decreasing_by
all_goals
  (try have h1 := trimHigh_length_le loff lsh lt)
  (try have h2 := trimHigh_length_le roff rsh rt)
  (try have h2a := trimHigh_length_le roff lsh (trimHigh roff rsh rt))
  (try have h3 := trimHigh_length_le loff lsh ((lk, lv) :: lt))
  (try have h4 := trimHigh_length_le roff rsh ((rk, rv) :: rt))
  (try have h4a := trimHigh_length_le roff lsh (trimHigh roff rsh ((rk, rv) :: rt)))
  simp only [List.length_cons, List.length_nil] at *
  omega

/-- Recursive equality `eqeq_r`.  The comparison of an LDType value with
an RDType one is abstracted as `ceq`; comparisons performed the other
way round (as in branch two of the source loop) use `ceqBA`.  Entry code
skips both cursors below their offsets and trims them against the LEFT
shape, as in source lines 973-976. -/
def eqeq_r {α β : Type} (ceq : α → β → Bool) (ceqBA : β → α → Bool)
    (L : RecData α) (R : RecData β) : Nat → NList α → NList β → Bool
  | 0, l, r =>
    eqleafLoop (fun lv => match lv with | .scal a => ceq a R.init | .sub _ => false)
      (fun rv => match rv with | .scal b => ceqBA b L.init | .sub _ => false)
      (fun lv rv => match lv, rv with | .scal a, .scal b => ceq a b | _, _ => false)
      (L.off 0) (R.off 0) (L.shp 0) (R.shp 0) (ceq L.init R.init)
      (trimHigh (L.off 0) (L.shp 0) (skipBelow (L.off 0) l))
      (trimHigh (R.off 0) (L.shp 0) (skipBelow (R.off 0) r))
      false
  | rec + 1, l, r =>
    eqnodeLoop
      (fun lv => match lv with
        | .sub sl => eqeq_empty_r (fun a => ceq a R.init) L rec sl
        | .scal _ => false)
      (fun rv => match rv with
        | .sub sl => eqeq_empty_r (fun b => ceqBA b L.init) R rec sl
        | .scal _ => false)
      (fun lv rv => match lv, rv with
        | .sub ls, .sub rs => eqeq_r ceq ceqBA L R rec ls rs
        | _, _ => false)
      (L.off (rec + 1)) (R.off (rec + 1)) (L.shp (rec + 1)) (R.shp (rec + 1))
      (ceq L.init R.init)
      (trimHigh (L.off (rec + 1)) (L.shp (rec + 1)) (skipBelow (L.off (rec + 1)) l))
      (trimHigh (R.off (rec + 1)) (L.shp (rec + 1)) (skipBelow (R.off (rec + 1)) r))
      false

/-- Entry point `nm_list_storage_eqeq`: build the two `RecurseData`
helpers and run `eqeq_r` on the owners' top-level lists. -/
def nm_list_storage_eqeq {α β : Type} (ceq : α → β → Bool) (ceqBA : β → α → Bool)
    (s : LStor α) (t : LStor β) : Bool :=
  eqeq_r ceq ceqBA (RecData.ofStorage s) (RecData.ofStorage t) (s.dim - 1) s.rows t.rows

/-- Recursive `slice_copy` (source lines 547-576).  Walks the source
nodes at axis `n`, keeps those whose shifted key (an `int` in the
source) lies in `[0, lengths[n])`, recursing at non-leaf axes.  The
source guards the recursive result with `if (val)`, but `slice_copy`
never returns a null pointer, so the child list is attached even when it
is empty.  Insertion into the destination uses the ordered
insert-or-replace `list_insert`; the accumulator is the destination list
built so far. -/
def slice_copy {α : Type} (offv coords lengths : List Nat) (D : Nat) :
    Nat → NList α → NList α → NList α
  | _, [], acc => acc
  | n, (k, v) :: t, acc =>
    let key : Int := (k : Int) - ((offv.getD n 0 + coords.getD n 0 : Nat) : Int)
    let acc2 :=
      if 0 ≤ key ∧ key < ((lengths.getD n 0 : Nat) : Int) then
        if D - n > 1 then
          match v with
          | .sub sl =>
            let val := slice_copy offv coords lengths D (n + 1) sl []
            list_insert acc key.toNat (.sub val)
          | .scal _ => acc
        else list_insert acc key.toNat v
      else acc
    slice_copy offv coords lengths D n t acc2
termination_by n l acc => sizeOf l
decreasing_by
all_goals simp
all_goals omega

/-- Non-single branch of `nm_list_storage_get` (source lines 589-600):
allocate a fresh owning storage whose shape is the slice lengths and
whose default is a copy of the source default, then populate its rows by
`slice_copy`. -/
def nm_list_storage_get_slice {α : Type} (s : LStor α) (coords lengths : List Nat) : LStor α :=
  { dim := s.dim
    dtype := s.dtype
    shape := (List.range s.dim).map (fun i => lengths.getD i 0)
    offset := List.replicate s.dim 0
    rows := slice_copy s.offset coords lengths s.dim 0 s.rows []
    default_val := s.default_val
    srcSelf := true }

/-- Copy constructor `nm_list_storage_copy` (source lines 853-866): a
fresh owning storage with the same shape and a copied default, populated
by `slice_copy` called with the new storage's zero offsets as the
coordinates and its shape as the lengths. -/
def nm_list_storage_copy {α : Type} (s : LStor α) : LStor α :=
  { dim := s.dim
    dtype := s.dtype
    shape := s.shape
    offset := List.replicate s.dim 0
    rows := slice_copy s.offset (List.replicate s.dim 0) s.shape s.dim 0 s.rows []
    default_val := s.default_val
    srcSelf := true }

/-- Existing sublist at a key, or a fresh empty one (the drill-down step
of `slice_set_single`, which calls `list::insert` with replace=false so
an existing sublist is reused and a missing one starts empty). -/
def getSubAt {α : Type} (l : NList α) (key : Nat) : NList α :=
  match findKey l key with
  | some (.sub sl) => sl
  | _ => []

/-- Recursive `slice_set_single` (source lines 644-677): at every
non-leaf axis, for each index in the slice ensure a child sublist exists
at the corresponding key and recurse into it; at the leaf axis write the
scalar at every key of the slice with insert-or-replace semantics.  The
cursor-based `insert_after`/`replace_insert_after` optimization of the
source is flattened into per-key ordered insert-or-replace, which has
the same effect.  The second argument is the list of remaining indices
at this axis (initially `List.range lengths[n]`). -/
def slice_set_single {α : Type} (offv coords lengths : List Nat) (D : Nat) (val : α) :
    Nat → List Nat → NList α → NList α
  | _, [], l => l
  | n, i :: is, l =>
    let key := i + offv.getD n 0 + coords.getD n 0
    let l2 :=
      if h : 1 < D - n then
        list_insert l key
          (.sub (slice_set_single offv coords lengths D val (n + 1)
            (List.range (lengths.getD (n + 1) 0)) (getSubAt l key)))
      else list_insert l key (.scal val)
    slice_set_single offv coords lengths D val n is l2
termination_by n is l => (D - n, is.length)
decreasing_by
all_goals simp_wf
· left
  omega
· right
  omega

/-- Modelled from the spec, section 4.1: `remove_recursive` (the
implementation lives in util/sl_list.h).  For every axis at or below the
current one, descend into the sublists whose key lies in
`[offset[n]+coords[n], offset[n]+coords[n]+lengths[n])`; at the leaf
axis delete every node in range; after a recursive call, delete the
visited node if its subtree became empty.  The caller reads emptiness of
the result with `List.isEmpty`. -/
def remove_recursive {α : Type} (coords offv lengths : List Nat) (dim : Nat) :
    Nat → NList α → NList α
  | _, [] => []
  | n, (k, v) :: t =>
    let lo := offv.getD n 0 + coords.getD n 0
    let rest := remove_recursive coords offv lengths dim n t
    if lo ≤ k ∧ k < lo + lengths.getD n 0 then
      if h : 1 < dim - n then
        match v with
        | .sub sl =>
          let sl2 := remove_recursive coords offv lengths dim (n + 1) sl
          if sl2.isEmpty then rest else (k, .sub sl2) :: rest
        | .scal a => (k, .scal a) :: rest
      else rest
    else (k, v) :: rest
termination_by n l => (dim - n, sizeOf l)
decreasing_by
all_goals simp_wf
· right
  simp <;> omega
· left
  omega

/-- Errors raised by `nm_list_storage_set`. -/
inductive NMError where
  | notImplemented
  | typeError
deriving DecidableEq

/-- The right-hand side of a slice assignment, after the type dispatch
of the source (lines 686-692): another nmatrix (`T_DATA` whose free
function is `nm_delete` or `nm_delete_ref`), some other `T_DATA` object,
or a scalar.  The scalar carries the byte value produced by the external
conversion `rubyobj_to_cval` (modelled as already converted). -/
inductive SetRHS where
  | nmMatrix
  | otherData
  | scal (v : List Nat)

/-- Entry point `nm_list_storage_set` (source lines 683-705).  A matrix
right-hand side raises NotImplemented, another data object raises
TypeError, both before touching the storage (returned unchanged).  For a
scalar, the converted value is compared with the default by
`memcmp(val, s->default_val, s->dtype)` - note the length argument is
the dtype TAG, not `DTYPE_SIZES[s->dtype]` - and the storage is either
pruned by `remove_recursive` or written by `slice_set_single`. -/
def nm_list_storage_set (s : LStor (List Nat)) (coords lengths : List Nat)
    (rhs : SetRHS) : Option NMError × LStor (List Nat) :=
  match rhs with
  | .nmMatrix => (some .notImplemented, s)
  | .otherData => (some .typeError, s)
  | .scal rv =>
    let val := rv
    let remove := memcmp_eq val s.default_val (dtypeTag s.dtype)
    if remove then
      (none, { s with rows := remove_recursive coords s.offset lengths s.dim 0 s.rows })
    else
      let newRows := slice_set_single s.offset coords lengths s.dim val 0
        (List.range (lengths.getD 0 0)) s.rows
      (none, { s with rows := newRows })

/-- Entry point `nm_list_storage_remove` (source lines 736-743): run
`remove_recursive` over the slice range and deliberately ignore the
returned emptiness flag, keeping the (possibly empty) top-level rows
list in place. -/
def nm_list_storage_remove {α : Type} (s : LStor α) (coords lengths : List Nat) : LStor α :=
  { s with rows := remove_recursive coords s.offset lengths s.dim 0 s.rows }

/-- Index loop shared by the two branches of `each_with_indices_r`
(source lines 392-421): for every reference index at this axis, either
the current node matches (visit it and advance) or the index precedes
the current node (visit the absent-entry callback).  The callbacks
receive the index stack with the current index pushed. -/
def eachIdxLoop {α γ : Type} (emptyY : List Nat → List γ)
    (presY : NodeVal α → List Nat → List γ) (off : Nat) :
    List Nat → NList α → List Nat → List γ
  | [], _, _ => []
  | i :: is, [], stack =>
    emptyY (stack ++ [i]) ++ eachIdxLoop emptyY presY off is [] stack
  | i :: is, (k, v) :: t, stack =>
    if i < wsub k off then
      emptyY (stack ++ [i]) ++ eachIdxLoop emptyY presY off is ((k, v) :: t) stack
    else
      presY v (stack ++ [i]) ++ eachIdxLoop emptyY presY off is t stack

/-- Recursive helper `each_empty_with_indices_r` (source lines 358-377):
yield the default value for every index tuple of the remaining
reference shape. -/
def each_empty_with_indices_r {α : Type} (S : RecData α) :
    Nat → List Nat → List (α × List Nat)
  | 0, stack => (List.range (S.shp 0)).map (fun i => (S.init, stack ++ [i]))
  | rec + 1, stack =>
    (List.range (S.shp (rec + 1))).flatMap
      (fun i => each_empty_with_indices_r S rec (stack ++ [i]))

/-- Recursive helper `each_with_indices_r` (source lines 382-423): the
dense iterator.  Yields, in reference-index order, one entry per index
tuple, the stored value where the cursor matches and the default
elsewhere. -/
def each_with_indices_r {α : Type} (S : RecData α) :
    Nat → NList α → List Nat → List (α × List Nat)
  | 0, l, stack =>
    eachIdxLoop (fun st => [(S.init, st)])
      (fun v st => [(match v with | .scal a => a | .sub _ => S.init, st)])
      (S.off 0) (List.range (S.shp 0))
      (entryTrim (S.off 0) (S.shp 0) l) stack
  | rec + 1, l, stack =>
    eachIdxLoop (fun st => each_empty_with_indices_r S rec st)
      (fun v st => match v with
        | .sub sl => each_with_indices_r S rec sl st
        | .scal _ => [])
      (S.off (rec + 1)) (List.range (S.shp (rec + 1)))
      (entryTrim (S.off (rec + 1)) (S.shp (rec + 1)) l) stack

/-- Dense branch of `nm_list_each_with_indices` (source lines 474-487):
build the `RecurseData` and run the dense iterator from the top level
with an empty stack. -/
def nm_list_each_with_indices_dense {α : Type} (s : LStor α) : List (α × List Nat) :=
  each_with_indices_r (RecData.ofStorage s) (s.dim - 1) s.rows []

/-- Loop of `map_empty_stored_r` at a non-leaf depth: build the child
list for every surviving node and insert it only when non-empty.
`insert_helper` with the previously inserted node as cursor appends in
key order (modelled from the spec, section 4.1 `insert_after`; the
implementation lives in util/sl_list.h). -/
def mapESubLoop {α V : Type} (g : NodeVal α → NList V) (off sh : Nat) :
    NList α → NList V → NList V
  | [], acc => acc
  | (k, v) :: t, acc =>
    mapESubLoop g off sh (trimHigh off sh t)
      (if (g v).isEmpty then acc else acc ++ [(wsub k off, .sub (g v))])
termination_by l acc => l.length
decreasing_by
have := trimHigh_length_le off sh t
simp only [List.length_cons]
omega

/-- Loop of `map_empty_stored_r` at leaf depth: apply the block to each
surviving stored value (and the phantom partner) and insert the result
only when it differs from the result storage's default. -/
def mapELeafLoop {α V : Type} [DecidableEq V] (fv : NodeVal α → V) (dflt : V) (off sh : Nat) :
    NList α → NList V → NList V
  | [], acc => acc
  | (k, v) :: t, acc =>
    mapELeafLoop fv dflt off sh (trimHigh off sh t)
      (if fv v ≠ dflt then acc ++ [(wsub k off, .scal (fv v))] else acc)
termination_by l acc => l.length
decreasing_by
have := trimHigh_length_le off sh t
simp only [List.length_cons]
omega

/-- Recursive helper `map_empty_stored_r` (source lines 141-177): one
side of the merged map is absent, so combine each stored value of the
present side with the other side's default (`t_init`); `rev` tells which
operand the stored value is.  Offsets and shapes come from the RESULT's
`RecurseData`, as in the source.  `conv` is the external conversion of a
stored value to a host value. -/
def map_empty_stored_r {α V : Type} [DecidableEq V] (conv : α → V) (f : V → V → V)
    (RES : RecData V) (rev : Bool) (t_init : V) : Nat → NList α → NList V
  | 0, l =>
    mapELeafLoop
      (fun v => match v with
        | .scal a => if rev then f t_init (conv a) else f (conv a) t_init
        | .sub _ => t_init)
      RES.init (RES.off 0) (RES.shp 0)
      (entryTrim (RES.off 0) (RES.shp 0) l) []
  | rec + 1, l =>
    mapESubLoop
      (fun v => match v with
        | .sub sl => map_empty_stored_r conv f RES rev t_init rec sl
        | .scal _ => [])
      (RES.off (rec + 1)) (RES.shp (rec + 1))
      (entryTrim (RES.off (rec + 1)) (RES.shp (rec + 1)) l) []

/-- Merge loop of `map_merged_stored_r` at a non-leaf depth (source
lines 195-220): the side with the smaller reference index advances with
a one-sided child (`gl`/`gr`), equal indices advance both (`gb`); the
child list is inserted only when non-empty.  Both cursors are trimmed
against the RESULT's shape. -/
def mapNodeLoop {α β V : Type} (gl : NodeVal α → NList V) (gr : NodeVal β → NList V)
    (gb : NodeVal α → NodeVal β → NList V) (loff roff sh : Nat) :
    NList α → NList β → NList V → NList V
  | [], [], acc => acc
  | (lk, lv) :: lt, [], acc =>
    mapNodeLoop gl gr gb loff roff sh (trimHigh loff sh lt) []
      (if (gl lv).isEmpty then acc else acc ++ [(wsub lk loff, .sub (gl lv))])
  | [], (rk, rv) :: rt, acc =>
    mapNodeLoop gl gr gb loff roff sh [] (trimHigh roff sh rt)
      (if (gr rv).isEmpty then acc else acc ++ [(wsub rk roff, .sub (gr rv))])
  | (lk, lv) :: lt, (rk, rv) :: rt, acc =>
    if wsub lk loff < wsub rk roff then
      mapNodeLoop gl gr gb loff roff sh (trimHigh loff sh lt)
        (trimHigh roff sh ((rk, rv) :: rt))
        (if (gl lv).isEmpty then acc else acc ++ [(wsub lk loff, .sub (gl lv))])
    else if wsub rk roff < wsub lk loff then
      mapNodeLoop gl gr gb loff roff sh (trimHigh loff sh ((lk, lv) :: lt))
        (trimHigh roff sh rt)
        (if (gr rv).isEmpty then acc else acc ++ [(wsub rk roff, .sub (gr rv))])
    else
      mapNodeLoop gl gr gb loff roff sh (trimHigh loff sh lt) (trimHigh roff sh rt)
        (if (gb lv rv).isEmpty then acc else acc ++ [(wsub lk loff, .sub (gb lv rv))])
termination_by l r acc => l.length + r.length
decreasing_by
all_goals
  (try have h1 := trimHigh_length_le loff sh lt)
  (try have h2 := trimHigh_length_le roff sh rt)
  (try have h3 := trimHigh_length_le loff sh ((lk, lv) :: lt))
  (try have h4 := trimHigh_length_le roff sh ((rk, rv) :: rt))
  simp only [List.length_cons, List.length_nil] at *
  omega

/-- Merge loop of `map_merged_stored_r` at leaf depth (source lines
222-245): combine the two values (using the other side's default where
one is absent) and insert the result only when it differs from the
result storage's default. -/
def mapLeafLoop {α β V : Type} [DecidableEq V] (fl : NodeVal α → V) (fr : NodeVal β → V)
    (fb : NodeVal α → NodeVal β → V) (dflt : V) (loff roff sh : Nat) :
    NList α → NList β → NList V → NList V
  | [], [], acc => acc
  | (lk, lv) :: lt, [], acc =>
    mapLeafLoop fl fr fb dflt loff roff sh (trimHigh loff sh lt) []
      (if fl lv ≠ dflt then acc ++ [(wsub lk loff, .scal (fl lv))] else acc)
  | [], (rk, rv) :: rt, acc =>
    mapLeafLoop fl fr fb dflt loff roff sh [] (trimHigh roff sh rt)
      (if fr rv ≠ dflt then acc ++ [(wsub rk roff, .scal (fr rv))] else acc)
  | (lk, lv) :: lt, (rk, rv) :: rt, acc =>
    if wsub lk loff < wsub rk roff then
      mapLeafLoop fl fr fb dflt loff roff sh (trimHigh loff sh lt)
        (trimHigh roff sh ((rk, rv) :: rt))
        (if fl lv ≠ dflt then acc ++ [(wsub lk loff, .scal (fl lv))] else acc)
    else if wsub rk roff < wsub lk loff then
      mapLeafLoop fl fr fb dflt loff roff sh (trimHigh loff sh ((lk, lv) :: lt))
        (trimHigh roff sh rt)
        (if fr rv ≠ dflt then acc ++ [(wsub rk roff, .scal (fr rv))] else acc)
    else
      mapLeafLoop fl fr fb dflt loff roff sh (trimHigh loff sh lt) (trimHigh roff sh rt)
        (if fb lv rv ≠ dflt then acc ++ [(wsub lk loff, .scal (fb lv rv))] else acc)
termination_by l r acc => l.length + r.length
decreasing_by
all_goals
  (try have h1 := trimHigh_length_le loff sh lt)
  (try have h2 := trimHigh_length_le roff sh rt)
  (try have h3 := trimHigh_length_le loff sh ((lk, lv) :: lt))
  (try have h4 := trimHigh_length_le roff sh ((rk, rv) :: rt))
  simp only [List.length_cons, List.length_nil] at *
  omega

/-- Recursive helper `map_merged_stored_r` (source lines 183-247).
`convL`/`convR` are the external conversions of stored values to host
values, `f` the user block, `linitV`/`rinitV` the two sides' defaults as
host values (`init_obj`).  Entry code skips the cursors below the
respective offsets and trims both against the RESULT's shape. -/
def map_merged_stored_r {α β V : Type} [DecidableEq V] (convL : α → V) (convR : β → V)
    (f : V → V → V) (RES : RecData V) (L : RecData α) (R : RecData β)
    (linitV rinitV : V) : Nat → NList α → NList β → NList V
  | 0, l, r =>
    mapLeafLoop
      (fun lv => match lv with
        | .scal a => f (convL a) rinitV
        | .sub _ => rinitV)
      (fun rv => match rv with
        | .scal b => f linitV (convR b)
        | .sub _ => linitV)
      (fun lv rv => match lv, rv with
        | .scal a, .scal b => f (convL a) (convR b)
        | _, _ => rinitV)
      RES.init (L.off 0) (R.off 0) (RES.shp 0)
      (trimHigh (L.off 0) (RES.shp 0) (skipBelow (L.off 0) l))
      (trimHigh (R.off 0) (RES.shp 0) (skipBelow (R.off 0) r))
      []
  | rec + 1, l, r =>
    mapNodeLoop
      (fun lv => match lv with
        | .sub sl => map_empty_stored_r convL f RES false rinitV rec sl
        | .scal _ => [])
      (fun rv => match rv with
        | .sub sl => map_empty_stored_r convR f RES true linitV rec sl
        | .scal _ => [])
      (fun lv rv => match lv, rv with
        | .sub ls, .sub rs =>
          map_merged_stored_r convL convR f RES L R linitV rinitV rec ls rs
        | _, _ => [])
      (L.off (rec + 1)) (R.off (rec + 1)) (RES.shp (rec + 1))
      (trimHigh (L.off (rec + 1)) (RES.shp (rec + 1)) (skipBelow (L.off (rec + 1)) l))
      (trimHigh (R.off (rec + 1)) (RES.shp (rec + 1)) (skipBelow (R.off (rec + 1)) r))
      []

/-- Pointer-level view of a `LIST_STORAGE` used for the reference
counting and `src`-graph claims: `rows` and `default_val` are pointer
identities, `src` is a heap index (the heap is a list of storages
indexed by position). -/
structure PtrStorage where
  dim : Nat
  dtype : Nat
  shape : List Nat
  offset : List Nat
  rows : Nat
  default_val : Nat
  count : Nat
  src : Nat
deriving DecidableEq

/-- Non-single branch of `nm_list_storage_ref` (source lines 617-637):
allocate a view whose offsets are the slice coordinates added to the
source's offsets, whose shape is the slice lengths, sharing `rows` and
`default_val`, pointing `src` at the source's `src`, and increment that
storage's reference count.  The view's own count is left as allocated
(never read for views; modelled as 0). -/
def nm_list_storage_ref (heap : List PtrStorage) (sid : Nat)
    (coords lengths : List Nat) : List PtrStorage :=
  match heap[sid]? with
  | none => heap
  | some s =>
    let ns : PtrStorage :=
      { dim := s.dim
        dtype := s.dtype
        shape := (List.range s.dim).map (fun i => lengths.getD i 0)
        offset := (List.range s.dim).map (fun i => coords.getD i 0 + s.offset.getD i 0)
        rows := s.rows
        default_val := s.default_val
        count := 0
        src := s.src }
    match heap[s.src]? with
    | none => heap ++ [ns]
    | some o => heap.set s.src { o with count := o.count + 1 } ++ [ns]

/-- Membership of the axes `n, n+1, ..., dim-1` of a key path in the
slice range `[offset[a]+coords[a], offset[a]+coords[a]+lengths[a])`
(second argument is the number of remaining axes, `dim - n`).  This is
the spec-side description of the range visited by `remove_recursive`. -/
def sliceInRangeFrom (offv coords lengths : List Nat) : Nat → Nat → List Nat → Bool
  | _, 0, _ => true
  | n, m + 1, path =>
    (decide (offv.getD n 0 + coords.getD n 0 ≤ path.getD n 0) &&
     decide (path.getD n 0 < offv.getD n 0 + coords.getD n 0 + lengths.getD n 0)) &&
    sliceInRangeFrom offv coords lengths (n + 1) m path

/-- A key path lies inside the slice range on every axis. -/
def sliceInRange (offv coords lengths : List Nat) (dim : Nat) (path : List Nat) : Bool :=
  sliceInRangeFrom offv coords lengths 0 dim path

/-- C8: for every call to set whose right-hand value is another matrix,
set raises a NotImplemented error and the storage is left unchanged (no
write and no removal is performed). -/
theorem set_matrix_rhs_raises_not_implemented (s : LStor (List Nat))
    (coords lengths : List Nat) :
    nm_list_storage_set s coords lengths SetRHS.nmMatrix =
      (some NMError.notImplemented, s) := rfl

/-- C1 (code bug): the source decides between removal and write with
`memcmp(val, s->default_val, s->dtype)`, whose length argument is the
dtype TAG rather than the dtype's byte size.  For the byte dtype the tag
is 0, so zero bytes are compared and every scalar is treated as equal to
the default: `set` prunes instead of writing.  Here the scalar `[5]`
differs from the default `[0]` over the dtype's byte size (first
conjunct), yet `set` leaves the storage all-default (second conjunct)
where the claimed behaviour would have written the scalar everywhere in
the slice (third conjunct shows the write branch's effect). -/
theorem set_memcmp_length_is_dtype_tag_bug :
    memcmp_eq [5] [0] (DTYPE_SIZES Dtype.byte) = false ∧
    nm_list_storage_set ⟨1, Dtype.byte, [1], [0], [], [0], true⟩ [0] [1] (SetRHS.scal [5]) =
      (none, ⟨1, Dtype.byte, [1], [0], [], [0], true⟩) ∧
    slice_set_single [0] [0] [1] 1 [5] 0 [0] [] = [(0, NodeVal.scal [5])] := by
  refine ⟨by decide, ?_, ?_⟩
  · simp [nm_list_storage_set, memcmp_eq, dtypeTag, remove_recursive.eq_def]
  · simp [slice_set_single.eq_def, list_insert]

/-- C2 (code bug): the non-leaf branch of `slice_copy` attaches the
recursively built child sublist under the guard `if (val)`, but
`slice_copy` never returns a null pointer, so the guard always passes
and an EMPTY child sublist is attached whenever the child recursion
finds no in-range node.  Slicing `(0,0)` of size 1x1 out of a 2-D
storage whose only stored node sits at `(0,5)` yields an owning storage
whose row list owns an empty sublist, violating the no-empty-sublist
invariant the claim asserts. -/
theorem slice_copy_attaches_empty_sublist :
    (nm_list_storage_get_slice
        (⟨2, Dtype.byte, [1, 6], [0, 0], [(0, NodeVal.sub [(5, NodeVal.scal (7 : Int))])],
          0, true⟩ : LStor Int) [0, 0] [1, 1]).rows = [(0, NodeVal.sub [])] ∧
    lsNoEmpty (α := Int) [(0, NodeVal.sub [])] = false := by
  constructor
  · simp [nm_list_storage_get_slice, slice_copy.eq_def, list_insert]
  · simp [lsNoEmpty, ntNoEmpty, List.isEmpty]

theorem getD_map_range (f : Nat → Nat) (n i : Nat) (h : i < n) :
    (((List.range n).map f).getD i 0) = f i := by
  rw [List.getD_eq_getElem?_getD, List.getElem?_map, List.getElem?_range h]
  rfl

/-- C4: for every storage s and non-single slice, ref returns a view v
with offsets summed with the slice coordinates, shape the slice lengths,
shared rows and default, src copied from s, and the reference count of
the storage at s.src incremented by exactly one (all other heap entries
untouched). -/
theorem ref_view_fields_and_refcount (heap : List PtrStorage) (sid : Nat)
    (coords lengths : List Nat) (s o : PtrStorage)
    (hs : heap[sid]? = some s) (ho : heap[s.src]? = some o) :
    ∃ v : PtrStorage,
      nm_list_storage_ref heap sid coords lengths =
        heap.set s.src { o with count := o.count + 1 } ++ [v] ∧
      (∀ i, i < s.dim → v.offset.getD i 0 = s.offset.getD i 0 + coords.getD i 0) ∧
      (∀ i, i < s.dim → v.shape.getD i 0 = lengths.getD i 0) ∧
      v.rows = s.rows ∧ v.default_val = s.default_val ∧ v.src = s.src ∧
      (nm_list_storage_ref heap sid coords lengths)[s.src]? =
        some { o with count := o.count + 1 } ∧
      (∀ j, j < heap.length → j ≠ s.src →
        (nm_list_storage_ref heap sid coords lengths)[j]? = heap[j]?) := by
  have hsrclt : s.src < heap.length := by
    rcases List.getElem?_eq_some_iff.mp ho with ⟨hlt, _⟩
    exact hlt
  refine ⟨{ dim := s.dim, dtype := s.dtype,
            shape := (List.range s.dim).map (fun i => lengths.getD i 0),
            offset := (List.range s.dim).map (fun i => coords.getD i 0 + s.offset.getD i 0),
            rows := s.rows, default_val := s.default_val, count := 0, src := s.src },
          ?_, ?_, ?_, rfl, rfl, rfl, ?_, ?_⟩
  · simp only [nm_list_storage_ref, hs, ho]
  · intro i hi
    rw [getD_map_range _ _ _ hi]
    omega
  · intro i hi
    rw [getD_map_range _ _ _ hi]
  · simp only [nm_list_storage_ref, hs, ho]
    rw [List.getElem?_append_left (by simpa using hsrclt)]
    rw [List.getElem?_set_eq_of_lt _ hsrclt]
  · intro j hj hne
    simp only [nm_list_storage_ref, hs, ho]
    rw [List.getElem?_append_left (by simpa using hj)]
    rw [List.getElem?_set_ne (by omega)]

/-- C9: when the storage being sliced has a src that is its own source
(true of owners and, inductively, of every view built by ref), the view
returned by ref points its src directly at that terminal owner, so
resolution is a single hop, with the offsets composed additively at
construction time. -/
theorem ref_src_is_terminal_owner (heap : List PtrStorage) (sid : Nat)
    (coords lengths : List Nat) (s o : PtrStorage)
    (hs : heap[sid]? = some s) (ho : heap[s.src]? = some o) (hself : o.src = s.src) :
    ∃ v : PtrStorage,
      nm_list_storage_ref heap sid coords lengths =
        heap.set s.src { o with count := o.count + 1 } ++ [v] ∧
      v.src = s.src ∧
      (nm_list_storage_ref heap sid coords lengths)[v.src]? =
        some { o with count := o.count + 1 } ∧
      ({ o with count := o.count + 1 } : PtrStorage).src = v.src ∧
      (∀ i, i < s.dim → v.offset.getD i 0 = s.offset.getD i 0 + coords.getD i 0) := by
  obtain ⟨v, h1, h2, h3, h4, h5, h6, h7, h8⟩ :=
    ref_view_fields_and_refcount heap sid coords lengths s o hs ho
  exact ⟨v, h1, h6, by rw [h6]; exact h7, by simpa [h6] using hself, h2⟩

/-- Witness for C4 at a concrete heap: a single 4x4 owner storage sliced
with coords (2,2), lengths (2,2). -/
theorem ref_view_fields_and_refcount_witness :
    ∃ v : PtrStorage,
      nm_list_storage_ref [⟨2, 0, [4, 4], [0, 0], 10, 20, 1, 0⟩] 0 [2, 2] [2, 2] =
        [⟨2, 0, [4, 4], [0, 0], 10, 20, 2, 0⟩, v] ∧
      v.offset.getD 0 0 = 2 ∧ v.rows = 10 ∧ v.src = 0 := by
  obtain ⟨v, h1, h2, h3, h4, h5, h6, h7, h8⟩ :=
    ref_view_fields_and_refcount [⟨2, 0, [4, 4], [0, 0], 10, 20, 1, 0⟩] 0 [2, 2] [2, 2]
      ⟨2, 0, [4, 4], [0, 0], 10, 20, 1, 0⟩ ⟨2, 0, [4, 4], [0, 0], 10, 20, 1, 0⟩ rfl rfl
  refine ⟨v, by simpa using h1, ?_, h4, h6⟩
  have := h2 0 (by decide)
  simpa using this

/-- Witness for C9 at the same concrete heap. -/
theorem ref_src_is_terminal_owner_witness :
    ∃ v : PtrStorage,
      nm_list_storage_ref [⟨2, 0, [4, 4], [0, 0], 10, 20, 1, 0⟩] 0 [2, 2] [2, 2] =
        [⟨2, 0, [4, 4], [0, 0], 10, 20, 2, 0⟩, v] ∧
      v.src = 0 ∧
      (nm_list_storage_ref [⟨2, 0, [4, 4], [0, 0], 10, 20, 1, 0⟩] 0 [2, 2] [2, 2])[v.src]? =
        some ⟨2, 0, [4, 4], [0, 0], 10, 20, 2, 0⟩ := by
  obtain ⟨v, h1, h2, h3, h4, h5⟩ :=
    ref_src_is_terminal_owner [⟨2, 0, [4, 4], [0, 0], 10, 20, 1, 0⟩] 0 [2, 2] [2, 2]
      ⟨2, 0, [4, 4], [0, 0], 10, 20, 1, 0⟩ ⟨2, 0, [4, 4], [0, 0], 10, 20, 1, 0⟩ rfl rfl rfl
  exact ⟨v, by simpa using h1, h2, h3⟩

mutual

theorem ntLeaves_prefix {α : Type} : ∀ (v : NodeVal α) (path : List Nat)
    (pl : List Nat × α), pl ∈ ntLeaves path v → ∃ suf, pl.1 = path ++ suf
  | .scal a, path, pl, h => by
    simp only [ntLeaves, List.mem_singleton] at h
    exact ⟨[], by simp [h]⟩
  | .sub l, path, pl, h =>
    lsLeaves_prefix l path pl (by simpa only [ntLeaves] using h)

theorem lsLeaves_prefix {α : Type} : ∀ (l : NList α) (path : List Nat)
    (pl : List Nat × α), pl ∈ lsLeaves path l → ∃ suf, pl.1 = path ++ suf
  | [], path, pl, h => by simp [lsLeaves] at h
  | (k, v) :: t, path, pl, h => by
    rw [lsLeaves] at h
    rcases List.mem_append.mp h with h1 | h2
    · rcases ntLeaves_prefix v (path ++ [k]) pl h1 with ⟨suf, hsuf⟩
      exact ⟨[k] ++ suf, by simp [hsuf]⟩
    · exact lsLeaves_prefix t path pl h2

end

theorem leaf_path_getD_at {k : Nat} {path suf : List Nat} :
    ((path ++ [k]) ++ suf).getD path.length 0 = k := by
  rw [List.append_assoc, List.getD_append_right _ _ _ _ (Nat.le_refl _)]
  simp

theorem sliceInRangeFrom_cons (offv coords lengths : List Nat) (n m : Nat)
    (path : List Nat) :
    sliceInRangeFrom offv coords lengths n (m + 1) path =
      ((decide (offv.getD n 0 + coords.getD n 0 ≤ path.getD n 0) &&
        decide (path.getD n 0 < offv.getD n 0 + coords.getD n 0 + lengths.getD n 0)) &&
       sliceInRangeFrom offv coords lengths (n + 1) m path) := rfl

theorem sliceInRangeFrom_at (offv coords lengths : List Nat) {n m : Nat}
    {path : List Nat} {k : Nat} (hget : path.getD n 0 = k) :
    sliceInRangeFrom offv coords lengths n (m + 1) path =
      ((decide (offv.getD n 0 + coords.getD n 0 ≤ k) &&
        decide (k < offv.getD n 0 + coords.getD n 0 + lengths.getD n 0)) &&
       sliceInRangeFrom offv coords lengths (n + 1) m path) := by
  rw [sliceInRangeFrom_cons, hget]

theorem remove_recursive_leaves {α : Type} (offv coords lengths : List Nat)
    (dim : Nat) :
    ∀ (n : Nat) (l : NList α) (path : List Nat), path.length = n → n < dim →
      lsOK (dim - n - 1) l = true →
      lsLeaves path (remove_recursive coords offv lengths dim n l) =
        (lsLeaves path l).filter
          (fun pl => !sliceInRangeFrom offv coords lengths n (dim - n) pl.1) := by
  intro n l
  induction n, l using remove_recursive.induct coords offv lengths dim with
  | case1 n =>
    intro path hlen hn hok
    simp [remove_recursive, lsLeaves]
  | case2 n k t lo hin hdeep sl sl2 hemp ih2 ih1 =>
    intro path hlen hn hok
    have hdd : dim - n - 1 = (dim - (n + 1) - 1) + 1 := by omega
    rw [hdd] at hok
    simp only [lsOK, ntOK, Bool.and_eq_true] at hok
    obtain ⟨hoksl, hokt⟩ := hok
    rw [← hdd] at hokt
    have hemp2 : (remove_recursive coords offv lengths dim (n + 1) sl : NList α) = [] := by
      have h3 : List.isEmpty (remove_recursive coords offv lengths dim (n + 1) sl) = true :=
        hemp
      simpa [List.isEmpty_iff] using h3
    have hihsl := ih1 (path ++ [k]) (by simp [hlen]) (by omega) hoksl
    rw [hemp2] at hihsl
    simp only [lsLeaves] at hihsl
    simp only [remove_recursive, if_pos hin, dif_pos hdeep, hemp2, List.isEmpty_nil,
      if_true]
    rw [ih2 path hlen hn hokt]
    simp only [lsLeaves, ntLeaves, List.filter_append]
    have hA : (decide (offv.getD n 0 + coords.getD n 0 ≤ k) &&
        decide (k < offv.getD n 0 + coords.getD n 0 + lengths.getD n 0)) = true := by
      simp only [Bool.and_eq_true, decide_eq_true_eq]
      exact hin
    have hcong : List.filter
        (fun pl => !sliceInRangeFrom offv coords lengths n (dim - n) pl.1)
        (lsLeaves (path ++ [k]) sl) =
        List.filter
          (fun pl => !sliceInRangeFrom offv coords lengths (n + 1) (dim - (n + 1)) pl.1)
          (lsLeaves (path ++ [k]) sl) := by
      apply List.filter_congr
      intro pl hpl
      rcases lsLeaves_prefix _ _ _ hpl with ⟨suf, hsuf⟩
      have hget : pl.1.getD n 0 = k := by
        rw [hsuf, ← hlen]; exact leaf_path_getD_at
      have hdn : dim - n = (dim - (n + 1)) + 1 := by omega
      rw [hdn, sliceInRangeFrom_at offv coords lengths hget, hA, Bool.true_and]
    rw [hcong, ← hihsl]
    simp
  | case3 n k t lo hin hdeep sl sl2 hemp ih2 ih1 =>
    intro path hlen hn hok
    have hdd : dim - n - 1 = (dim - (n + 1) - 1) + 1 := by omega
    rw [hdd] at hok
    simp only [lsOK, ntOK, Bool.and_eq_true] at hok
    obtain ⟨hoksl, hokt⟩ := hok
    rw [← hdd] at hokt
    have hihsl := ih1 (path ++ [k]) (by simp [hlen]) (by omega) hoksl
    have hemp2 : List.isEmpty (remove_recursive coords offv lengths dim (n + 1) sl) = false := by
      have h3 : ¬ List.isEmpty (remove_recursive coords offv lengths dim (n + 1) sl) = true :=
        hemp
      simpa using h3
    simp only [remove_recursive, if_pos hin, dif_pos hdeep, hemp2, Bool.false_eq_true,
      if_false]
    rw [lsLeaves, ntLeaves, hihsl, ih2 path hlen hn hokt]
    simp only [lsLeaves, ntLeaves, List.filter_append]
    have hA : (decide (offv.getD n 0 + coords.getD n 0 ≤ k) &&
        decide (k < offv.getD n 0 + coords.getD n 0 + lengths.getD n 0)) = true := by
      simp only [Bool.and_eq_true, decide_eq_true_eq]
      exact hin
    have hcong : List.filter
        (fun pl => !sliceInRangeFrom offv coords lengths n (dim - n) pl.1)
        (lsLeaves (path ++ [k]) sl) =
        List.filter
          (fun pl => !sliceInRangeFrom offv coords lengths (n + 1) (dim - (n + 1)) pl.1)
          (lsLeaves (path ++ [k]) sl) := by
      apply List.filter_congr
      intro pl hpl
      rcases lsLeaves_prefix _ _ _ hpl with ⟨suf, hsuf⟩
      have hget : pl.1.getD n 0 = k := by
        rw [hsuf, ← hlen]; exact leaf_path_getD_at
      have hdn : dim - n = (dim - (n + 1)) + 1 := by omega
      rw [hdn, sliceInRangeFrom_at offv coords lengths hget, hA, Bool.true_and]
    rw [hcong]
  | case4 n k t lo hin hdeep a ih1 =>
    intro path hlen hn hok
    have hdd : dim - n - 1 = (dim - (n + 1) - 1) + 1 := by omega
    rw [hdd] at hok
    simp [lsOK, ntOK] at hok
  | case5 n k v t lo hin hshallow ih1 =>
    intro path hlen hn hok
    have hd1 : dim - n - 1 = 0 := by omega
    rw [hd1] at hok
    simp only [lsOK, Bool.and_eq_true] at hok
    obtain ⟨hokv, hokt⟩ := hok
    rw [← hd1] at hokt
    rw [remove_recursive.eq_def]
    simp only [if_pos hin, dif_neg hshallow]
    rw [ih1 path hlen hn hokt]
    cases v with
    | sub sl => simp [ntOK] at hokv
    | scal a =>
      simp only [lsLeaves, ntLeaves, List.filter_append]
      have hget : ((path ++ [k]) : List Nat).getD n 0 = k := by
        have : ((path ++ [k]) : List Nat) = (path ++ [k]) ++ [] := by simp
        rw [this, ← hlen]
        exact leaf_path_getD_at
      have hdn : dim - n = 0 + 1 := by omega
      have hpred : sliceInRangeFrom offv coords lengths n (dim - n) (path ++ [k]) = true := by
        rw [hdn, sliceInRangeFrom_at offv coords lengths hget]
        simp only [sliceInRangeFrom, Bool.and_true, Bool.and_eq_true, decide_eq_true_eq]
        exact hin
      simp [List.filter, hpred]
  | case6 n k v t lo hnotin ih1 =>
    intro path hlen hn hok
    simp only [lsOK, Bool.and_eq_true] at hok
    obtain ⟨hokv, hokt⟩ := hok
    rw [remove_recursive.eq_def]
    simp only [if_neg hnotin]
    rw [lsLeaves, lsLeaves, List.filter_append]
    rw [ih1 path hlen hn hokt]
    have hA : (decide (offv.getD n 0 + coords.getD n 0 ≤ k) &&
        decide (k < offv.getD n 0 + coords.getD n 0 + lengths.getD n 0)) = false := by
      have hne : ¬ ((decide (offv.getD n 0 + coords.getD n 0 ≤ k) &&
          decide (k < offv.getD n 0 + coords.getD n 0 + lengths.getD n 0)) = true) := by
        simp only [Bool.and_eq_true, decide_eq_true_eq]
        exact hnotin
      simpa using hne
    have hpiece : List.filter
        (fun pl => !sliceInRangeFrom offv coords lengths n (dim - n) pl.1)
        (ntLeaves (path ++ [k]) v) = ntLeaves (path ++ [k]) v := by
      rw [List.filter_eq_self]
      intro pl hpl
      rcases ntLeaves_prefix _ _ _ hpl with ⟨suf, hsuf⟩
      have hget : pl.1.getD n 0 = k := by
        rw [hsuf, ← hlen]; exact leaf_path_getD_at
      have hdn : dim - n = (dim - n - 1) + 1 := by omega
      rw [hdn, sliceInRangeFrom_at offv coords lengths hget, hA]
      simp
    rw [hpiece]

/-- C10: for every storage s and every slice, remove only unlinks nodes
within the slice range (the stored leaves afterwards are exactly those
whose key path is not entirely inside the range), and the top-level rows
list is kept - never freed or replaced - even when the removal leaves it
completely empty, so s remains a valid possibly-all-default storage with
every other field untouched. -/
theorem remove_unlinks_only_slice_range {α : Type} (s : LStor α)
    (coords lengths : List Nat) (hdim : 1 ≤ s.dim)
    (hok : lsOK (s.dim - 1) s.rows = true) :
    (nm_list_storage_remove s coords lengths).dim = s.dim ∧
    (nm_list_storage_remove s coords lengths).dtype = s.dtype ∧
    (nm_list_storage_remove s coords lengths).shape = s.shape ∧
    (nm_list_storage_remove s coords lengths).offset = s.offset ∧
    (nm_list_storage_remove s coords lengths).default_val = s.default_val ∧
    (nm_list_storage_remove s coords lengths).srcSelf = s.srcSelf ∧
    (nm_list_storage_remove s coords lengths).rows =
      remove_recursive coords s.offset lengths s.dim 0 s.rows ∧
    lsLeaves [] (nm_list_storage_remove s coords lengths).rows =
      (lsLeaves [] s.rows).filter
        (fun pl => !sliceInRange s.offset coords lengths s.dim pl.1) := by
  refine ⟨rfl, rfl, rfl, rfl, rfl, rfl, rfl, ?_⟩
  have h := remove_recursive_leaves s.offset coords lengths s.dim 0 s.rows [] rfl
    (by omega) (by simpa using hok)
  simpa [nm_list_storage_remove, sliceInRange] using h

/-- Witness for C10: removing the whole 2x2 range of a 2-D storage with
three stored nodes empties the row list, which is retained (the storage
keeps a rows field, now the empty list) with all other fields intact. -/
theorem remove_unlinks_only_slice_range_witness :
    lsLeaves []
        (nm_list_storage_remove
          (⟨2, Dtype.byte, [2, 2], [0, 0],
            [(0, NodeVal.sub [(0, NodeVal.scal (9 : Int)), (1, NodeVal.scal 9)]),
             (1, NodeVal.sub [(0, NodeVal.scal 9)])], 0, true⟩ : LStor Int)
          [0, 0] [2, 2]).rows =
      (lsLeaves []
        ([(0, NodeVal.sub [(0, NodeVal.scal (9 : Int)), (1, NodeVal.scal 9)]),
          (1, NodeVal.sub [(0, NodeVal.scal 9)])] : NList Int)).filter
        (fun pl => !sliceInRange [0, 0] [0, 0] [2, 2] 2 pl.1) ∧
    (nm_list_storage_remove
        (⟨2, Dtype.byte, [2, 2], [0, 0],
          [(0, NodeVal.sub [(0, NodeVal.scal (9 : Int)), (1, NodeVal.scal 9)]),
           (1, NodeVal.sub [(0, NodeVal.scal 9)])], 0, true⟩ : LStor Int)
        [0, 0] [2, 2]).rows = [] := by
  constructor
  · exact (remove_unlinks_only_slice_range
      (⟨2, Dtype.byte, [2, 2], [0, 0],
        [(0, NodeVal.sub [(0, NodeVal.scal (9 : Int)), (1, NodeVal.scal 9)]),
         (1, NodeVal.sub [(0, NodeVal.scal 9)])], 0, true⟩ : LStor Int)
      [0, 0] [2, 2] (by decide) (by decide)).2.2.2.2.2.2.2
  · simp [nm_list_storage_remove, remove_recursive]

theorem eqeq_r_no_comparison {α β : Type} (ceq : α → β → Bool) (ceqBA : β → α → Bool)
    (L : RecData α) (R : RecData β) (rec : Nat) (l : NList α) (r : NList β)
    (hl : entryTrim (L.off rec) (L.shp rec) l = [])
    (hr : entryTrim (R.off rec) (L.shp rec) r = []) :
    eqeq_r ceq ceqBA L R rec l r = ceq L.init R.init := by
  cases rec with
  | zero =>
    rw [eqeq_r]
    rw [show trimHigh (L.off 0) (L.shp 0) (skipBelow (L.off 0) l) = [] from hl]
    rw [show trimHigh (R.off 0) (L.shp 0) (skipBelow (R.off 0) r) = [] from hr]
    rw [eqleafLoop]
    simp
  | succ n =>
    rw [eqeq_r]
    rw [show trimHigh (L.off (n + 1)) (L.shp (n + 1)) (skipBelow (L.off (n + 1)) l) = []
      from hl]
    rw [show trimHigh (R.off (n + 1)) (L.shp (n + 1)) (skipBelow (R.off (n + 1)) r) = []
      from hr]
    rw [eqnodeLoop]
    simp

/-- C3: when the traversal performs no element comparison because both
top-level lists are entirely empty of in-range nodes (their cursors are
exhausted by the entry skip/trim), eqeq returns exactly the comparison
of the two default values; so two all-default storages are equal iff
their defaults are equal. -/
theorem eqeq_no_comparison_compares_defaults {α β : Type} (ceq : α → β → Bool)
    (ceqBA : β → α → Bool) (s : LStor α) (t : LStor β)
    (hl : entryTrim ((RecData.ofStorage s).off (s.dim - 1))
      ((RecData.ofStorage s).shp (s.dim - 1)) s.rows = [])
    (hr : entryTrim ((RecData.ofStorage t).off (s.dim - 1))
      ((RecData.ofStorage s).shp (s.dim - 1)) t.rows = []) :
    nm_list_storage_eqeq ceq ceqBA s t = ceq s.default_val t.default_val := by
  unfold nm_list_storage_eqeq
  exact eqeq_r_no_comparison ceq ceqBA _ _ (s.dim - 1) s.rows t.rows hl hr

/-- Witness for C3, scenario S1 of the spec: two empty 3x3 storages with
defaults 0 and 1 compare unequal. -/
theorem eqeq_no_comparison_compares_defaults_witness :
    nm_list_storage_eqeq (fun a b => decide (a = b)) (fun b a => decide (b = a))
      (⟨2, Dtype.int64, [3, 3], [0, 0], [], (0 : Int), true⟩ : LStor Int)
      (⟨2, Dtype.int64, [3, 3], [0, 0], [], (1 : Int), true⟩ : LStor Int) = false := by
  rw [eqeq_no_comparison_compares_defaults (fun a b => decide (a = b))
    (fun b a => decide (b = a))
    (⟨2, Dtype.int64, [3, 3], [0, 0], [], (0 : Int), true⟩ : LStor Int)
    (⟨2, Dtype.int64, [3, 3], [0, 0], [], (1 : Int), true⟩ : LStor Int) rfl rfl]
  decide

theorem lsNoDef_append {V : Type} [DecidableEq V] (d : V) (a b : NList V) :
    lsNoDef d (a ++ b) = (lsNoDef d a && lsNoDef d b) := by
  induction a with
  | nil => simp [lsNoDef]
  | cons p t ih => simp [lsNoDef, ih, Bool.and_assoc]

theorem lsNoEmpty_append {V : Type} (a b : NList V) :
    lsNoEmpty (a ++ b) = (lsNoEmpty a && lsNoEmpty b) := by
  induction a with
  | nil => simp [lsNoEmpty]
  | cons p t ih => simp [lsNoEmpty, ih, Bool.and_assoc]

theorem mapELeafLoop_preds {α V : Type} [DecidableEq V] (fv : NodeVal α → V) (dflt : V)
    (off sh : Nat) :
    ∀ (l : NList α) (acc : NList V), lsNoDef dflt acc = true → lsNoEmpty acc = true →
      lsNoDef dflt (mapELeafLoop fv dflt off sh l acc) = true ∧
      lsNoEmpty (mapELeafLoop fv dflt off sh l acc) = true := by
  intro l acc
  induction l, acc using mapELeafLoop.induct fv dflt off sh with
  | case1 acc =>
    intro h1 h2
    rw [mapELeafLoop]
    exact ⟨h1, h2⟩
  | case2 k v t acc ih =>
    intro h1 h2
    rw [mapELeafLoop]
    apply ih
    · by_cases hval : fv v ≠ dflt
      · simp only [dif_pos hval, lsNoDef_append, h1, lsNoDef, ntNoDef, Bool.true_and]
        simp [hval]
      · simpa [dif_neg hval] using h1
    · by_cases hval : fv v ≠ dflt
      · simp only [dif_pos hval, lsNoEmpty_append, h2, lsNoEmpty, ntNoEmpty, Bool.true_and]
      · simpa [dif_neg hval] using h2

theorem mapESubLoop_preds {α V : Type} [DecidableEq V] (g : NodeVal α → NList V)
    (dflt : V) (off sh : Nat)
    (hg : ∀ v, lsNoDef dflt (g v) = true ∧ lsNoEmpty (g v) = true) :
    ∀ (l : NList α) (acc : NList V), lsNoDef dflt acc = true → lsNoEmpty acc = true →
      lsNoDef dflt (mapESubLoop g off sh l acc) = true ∧
      lsNoEmpty (mapESubLoop g off sh l acc) = true := by
  intro l acc
  induction l, acc using mapESubLoop.induct g off sh with
  | case1 acc =>
    intro h1 h2
    rw [mapESubLoop]
    exact ⟨h1, h2⟩
  | case2 k v t acc ih =>
    intro h1 h2
    rw [mapESubLoop]
    apply ih
    · by_cases hval : (g v).isEmpty
      · simpa [dif_pos hval] using h1
      · simp only [dif_neg hval, lsNoDef_append, h1, lsNoDef, ntNoDef, Bool.true_and]
        simp [(hg v).1]
    · by_cases hval : (g v).isEmpty
      · simpa [dif_pos hval] using h2
      · simp only [dif_neg hval, lsNoEmpty_append, h2, lsNoEmpty, ntNoEmpty, Bool.true_and]
        simp [(hg v).2, hval]

theorem map_empty_stored_preds {α V : Type} [DecidableEq V] (conv : α → V)
    (f : V → V → V) (RES : RecData V) (rev : Bool) (t_init : V) :
    ∀ (rec : Nat) (l : NList α),
      lsNoDef RES.init (map_empty_stored_r conv f RES rev t_init rec l) = true ∧
      lsNoEmpty (map_empty_stored_r conv f RES rev t_init rec l) = true := by
  intro rec
  induction rec with
  | zero =>
    intro l
    rw [map_empty_stored_r]
    exact mapELeafLoop_preds _ _ _ _ _ [] (by simp [lsNoDef]) (by simp [lsNoEmpty])
  | succ n ih =>
    intro l
    rw [map_empty_stored_r]
    apply mapESubLoop_preds
    · intro v
      cases v with
      | scal a => exact ⟨by simp [lsNoDef], by simp [lsNoEmpty]⟩
      | sub sl => exact ih sl
    · simp [lsNoDef]
    · simp [lsNoEmpty]

theorem mapLeafLoop_preds {α β V : Type} [DecidableEq V] (fl : NodeVal α → V)
    (fr : NodeVal β → V) (fb : NodeVal α → NodeVal β → V) (dflt : V)
    (loff roff sh : Nat) :
    ∀ (l : NList α) (r : NList β) (acc : NList V),
      lsNoDef dflt acc = true → lsNoEmpty acc = true →
      lsNoDef dflt (mapLeafLoop fl fr fb dflt loff roff sh l r acc) = true ∧
      lsNoEmpty (mapLeafLoop fl fr fb dflt loff roff sh l r acc) = true := by
  intro l r acc
  induction l, r, acc using mapLeafLoop.induct fl fr fb dflt loff roff sh with
  | case1 acc =>
    intro h1 h2
    rw [mapLeafLoop]
    exact ⟨h1, h2⟩
  | case2 lk lv lt acc ih =>
    intro h1 h2
    rw [mapLeafLoop]
    apply ih
    · by_cases hval : fl lv ≠ dflt
      · simp only [dif_pos hval, lsNoDef_append, h1, lsNoDef, ntNoDef, Bool.true_and]
        simp [hval]
      · simpa [dif_neg hval] using h1
    · by_cases hval : fl lv ≠ dflt
      · simp only [dif_pos hval, lsNoEmpty_append, h2, lsNoEmpty, ntNoEmpty, Bool.true_and]
      · simpa [dif_neg hval] using h2
  | case3 rk rv rt acc ih =>
    intro h1 h2
    rw [mapLeafLoop]
    apply ih
    · by_cases hval : fr rv ≠ dflt
      · simp only [dif_pos hval, lsNoDef_append, h1, lsNoDef, ntNoDef, Bool.true_and]
        simp [hval]
      · simpa [dif_neg hval] using h1
    · by_cases hval : fr rv ≠ dflt
      · simp only [dif_pos hval, lsNoEmpty_append, h2, lsNoEmpty, ntNoEmpty, Bool.true_and]
      · simpa [dif_neg hval] using h2
  | case4 lk lv lt rk rv rt acc hcmp ih =>
    intro h1 h2
    rw [mapLeafLoop]
    rw [if_pos hcmp]
    apply ih
    · by_cases hval : fl lv ≠ dflt
      · simp only [dif_pos hval, lsNoDef_append, h1, lsNoDef, ntNoDef, Bool.true_and]
        simp [hval]
      · simpa [dif_neg hval] using h1
    · by_cases hval : fl lv ≠ dflt
      · simp only [dif_pos hval, lsNoEmpty_append, h2, lsNoEmpty, ntNoEmpty, Bool.true_and]
      · simpa [dif_neg hval] using h2
  | case5 lk lv lt rk rv rt acc hcmp1 hcmp2 ih =>
    intro h1 h2
    rw [mapLeafLoop]
    rw [if_neg hcmp1, if_pos hcmp2]
    apply ih
    · by_cases hval : fr rv ≠ dflt
      · simp only [dif_pos hval, lsNoDef_append, h1, lsNoDef, ntNoDef, Bool.true_and]
        simp [hval]
      · simpa [dif_neg hval] using h1
    · by_cases hval : fr rv ≠ dflt
      · simp only [dif_pos hval, lsNoEmpty_append, h2, lsNoEmpty, ntNoEmpty, Bool.true_and]
      · simpa [dif_neg hval] using h2
  | case6 lk lv lt rk rv rt acc hcmp1 hcmp2 ih =>
    intro h1 h2
    rw [mapLeafLoop]
    rw [if_neg hcmp1, if_neg hcmp2]
    apply ih
    · by_cases hval : fb lv rv ≠ dflt
      · simp only [dif_pos hval, lsNoDef_append, h1, lsNoDef, ntNoDef, Bool.true_and]
        simp [hval]
      · simpa [dif_neg hval] using h1
    · by_cases hval : fb lv rv ≠ dflt
      · simp only [dif_pos hval, lsNoEmpty_append, h2, lsNoEmpty, ntNoEmpty, Bool.true_and]
      · simpa [dif_neg hval] using h2

theorem mapNodeLoop_preds {α β V : Type} [DecidableEq V] (gl : NodeVal α → NList V)
    (gr : NodeVal β → NList V) (gb : NodeVal α → NodeVal β → NList V) (dflt : V)
    (loff roff sh : Nat)
    (hgl : ∀ v, lsNoDef dflt (gl v) = true ∧ lsNoEmpty (gl v) = true)
    (hgr : ∀ v, lsNoDef dflt (gr v) = true ∧ lsNoEmpty (gr v) = true)
    (hgb : ∀ lv rv, lsNoDef dflt (gb lv rv) = true ∧ lsNoEmpty (gb lv rv) = true) :
    ∀ (l : NList α) (r : NList β) (acc : NList V),
      lsNoDef dflt acc = true → lsNoEmpty acc = true →
      lsNoDef dflt (mapNodeLoop gl gr gb loff roff sh l r acc) = true ∧
      lsNoEmpty (mapNodeLoop gl gr gb loff roff sh l r acc) = true := by
  intro l r acc
  induction l, r, acc using mapNodeLoop.induct gl gr gb loff roff sh with
  | case1 acc =>
    intro h1 h2
    rw [mapNodeLoop]
    exact ⟨h1, h2⟩
  | case2 lk lv lt acc ih =>
    intro h1 h2
    rw [mapNodeLoop]
    apply ih
    · by_cases hval : (gl lv).isEmpty
      · simpa [dif_pos hval] using h1
      · simp only [dif_neg hval, lsNoDef_append, h1, lsNoDef, ntNoDef, Bool.true_and]
        simp [(hgl lv).1]
    · by_cases hval : (gl lv).isEmpty
      · simpa [dif_pos hval] using h2
      · simp only [dif_neg hval, lsNoEmpty_append, h2, lsNoEmpty, ntNoEmpty, Bool.true_and]
        simp [(hgl lv).2, hval]
  | case3 rk rv rt acc ih =>
    intro h1 h2
    rw [mapNodeLoop]
    apply ih
    · by_cases hval : (gr rv).isEmpty
      · simpa [dif_pos hval] using h1
      · simp only [dif_neg hval, lsNoDef_append, h1, lsNoDef, ntNoDef, Bool.true_and]
        simp [(hgr rv).1]
    · by_cases hval : (gr rv).isEmpty
      · simpa [dif_pos hval] using h2
      · simp only [dif_neg hval, lsNoEmpty_append, h2, lsNoEmpty, ntNoEmpty, Bool.true_and]
        simp [(hgr rv).2, hval]
  | case4 lk lv lt rk rv rt acc hcmp ih =>
    intro h1 h2
    rw [mapNodeLoop]
    rw [if_pos hcmp]
    apply ih
    · by_cases hval : (gl lv).isEmpty
      · simpa [dif_pos hval] using h1
      · simp only [dif_neg hval, lsNoDef_append, h1, lsNoDef, ntNoDef, Bool.true_and]
        simp [(hgl lv).1]
    · by_cases hval : (gl lv).isEmpty
      · simpa [dif_pos hval] using h2
      · simp only [dif_neg hval, lsNoEmpty_append, h2, lsNoEmpty, ntNoEmpty, Bool.true_and]
        simp [(hgl lv).2, hval]
  | case5 lk lv lt rk rv rt acc hcmp1 hcmp2 ih =>
    intro h1 h2
    rw [mapNodeLoop]
    rw [if_neg hcmp1, if_pos hcmp2]
    apply ih
    · by_cases hval : (gr rv).isEmpty
      · simpa [dif_pos hval] using h1
      · simp only [dif_neg hval, lsNoDef_append, h1, lsNoDef, ntNoDef, Bool.true_and]
        simp [(hgr rv).1]
    · by_cases hval : (gr rv).isEmpty
      · simpa [dif_pos hval] using h2
      · simp only [dif_neg hval, lsNoEmpty_append, h2, lsNoEmpty, ntNoEmpty, Bool.true_and]
        simp [(hgr rv).2, hval]
  | case6 lk lv lt rk rv rt acc hcmp1 hcmp2 ih =>
    intro h1 h2
    rw [mapNodeLoop]
    rw [if_neg hcmp1, if_neg hcmp2]
    apply ih
    · by_cases hval : (gb lv rv).isEmpty
      · simpa [dif_pos hval] using h1
      · simp only [dif_neg hval, lsNoDef_append, h1, lsNoDef, ntNoDef, Bool.true_and]
        simp [(hgb lv rv).1]
    · by_cases hval : (gb lv rv).isEmpty
      · simpa [dif_pos hval] using h2
      · simp only [dif_neg hval, lsNoEmpty_append, h2, lsNoEmpty, ntNoEmpty, Bool.true_and]
        simp [(hgb lv rv).2, hval]

theorem map_merged_stored_preds {α β V : Type} [DecidableEq V] (convL : α → V)
    (convR : β → V) (f : V → V → V) (RES : RecData V) (L : RecData α) (R : RecData β)
    (linitV rinitV : V) :
    ∀ (rec : Nat) (l : NList α) (r : NList β),
      lsNoDef RES.init (map_merged_stored_r convL convR f RES L R linitV rinitV rec l r)
        = true ∧
      lsNoEmpty (map_merged_stored_r convL convR f RES L R linitV rinitV rec l r)
        = true := by
  intro rec
  induction rec with
  | zero =>
    intro l r
    rw [map_merged_stored_r]
    exact mapLeafLoop_preds _ _ _ _ _ _ _ _ _ [] (by simp [lsNoDef]) (by simp [lsNoEmpty])
  | succ n ih =>
    intro l r
    rw [map_merged_stored_r]
    apply mapNodeLoop_preds
    · intro v
      cases v with
      | scal a => exact ⟨by simp [lsNoDef], by simp [lsNoEmpty]⟩
      | sub sl => exact map_empty_stored_preds convL f RES false rinitV n sl
    · intro v
      cases v with
      | scal a => exact ⟨by simp [lsNoDef], by simp [lsNoEmpty]⟩
      | sub sl => exact map_empty_stored_preds convR f RES true linitV n sl
    · intro lv rv
      cases lv with
      | scal a => exact ⟨by simp [lsNoDef], by simp [lsNoEmpty]⟩
      | sub ls =>
        cases rv with
        | scal a => exact ⟨by simp [lsNoDef], by simp [lsNoEmpty]⟩
        | sub rs => exact ih ls rs
    · simp [lsNoDef]
    · simp [lsNoEmpty]

/-- C6: in the merged map, a combined leaf value is inserted into the
result only when it differs from the result storage's default, and a
freshly built child sublist is inserted only when it is non-empty; hence
the result of map_merged_stored_r (and of its one-sided helper
map_empty_stored_r) satisfies both the no-default-leaf and the
no-empty-sublist invariants. -/
theorem map_merged_result_invariants {α β V : Type} [DecidableEq V] (convL : α → V)
    (convR : β → V) (f : V → V → V) (RES : RecData V) (L : RecData α) (R : RecData β)
    (linitV rinitV : V) (rec : Nat) (l : NList α) (r : NList β) (rev : Bool)
    (t_init : V) (la : NList α) :
    lsNoDef RES.init (map_merged_stored_r convL convR f RES L R linitV rinitV rec l r)
      = true ∧
    lsNoEmpty (map_merged_stored_r convL convR f RES L R linitV rinitV rec l r)
      = true ∧
    lsNoDef RES.init (map_empty_stored_r convL f RES rev t_init rec la) = true ∧
    lsNoEmpty (map_empty_stored_r convL f RES rev t_init rec la) = true :=
  ⟨(map_merged_stored_preds convL convR f RES L R linitV rinitV rec l r).1,
   (map_merged_stored_preds convL convR f RES L R linitV rinitV rec l r).2,
   (map_empty_stored_preds convL f RES rev t_init rec la).1,
   (map_empty_stored_preds convL f RES rev t_init rec la).2⟩

/-- All index tuples of a shape, in lexicographic order (outermost axis
first): the spec-side enumeration of the reference box. -/
def allTuples : List Nat → List (List Nat)
  | [] => [[]]
  | n :: rest => (List.range n).flatMap (fun i => (allTuples rest).map (fun t => i :: t))

/-- Spec-side lookup of the value denoted at a reference index tuple:
walk the nested lists by key `offset(rec) + index`, returning the view's
default as soon as a level misses. -/
def lookupT {α : Type} (S : RecData α) : Nat → NList α → List Nat → α
  | 0, l, t =>
    match findKey l (S.off 0 + t.getD 0 0) with
    | some (.scal a) => a
    | _ => S.init
  | rec + 1, l, t =>
    match findKey l (S.off (rec + 1) + t.getD 0 0) with
    | some (.sub sl) => lookupT S rec sl t.tail
    | _ => S.init

/-- The reference shape visible from recursion depth `rec` down to the
leaf axis, outermost first. -/
def shapeList {α : Type} (S : RecData α) (rec : Nat) : List Nat :=
  (List.range (rec + 1)).map (fun i => S.shp (rec - i))

theorem shapeList_succ {α : Type} (S : RecData α) (r : Nat) :
    shapeList S (r + 1) = S.shp (r + 1) :: shapeList S r := by
  unfold shapeList
  rw [List.range_succ_eq_map]
  simp only [List.map_cons, List.map_map, Nat.sub_zero]
  congr 1
  apply List.map_congr_left
  intro i hi
  simp only [Function.comp]
  congr 1
  omega

theorem shapeList_zero {α : Type} (S : RecData α) :
    shapeList S 0 = [S.shp 0] := by
  unfold shapeList
  simp

theorem lsSorted_cons {α : Type} {k : Nat} {v : NodeVal α} {t : NList α}
    (h : lsSorted ((k, v) :: t) = true) :
    lsSorted t = true ∧ ntSorted v = true ∧ ∀ p ∈ t, k < p.1 := by
  induction t generalizing k v with
  | nil =>
    refine ⟨by simp [lsSorted], by simpa [lsSorted] using h, by simp⟩
  | cons q t2 ih =>
    rw [lsSorted] at h
    simp only [Bool.and_eq_true, decide_eq_true_eq] at h
    obtain ⟨⟨hkq, hv⟩, ht⟩ := h
    have h2 := ih ht
    refine ⟨ht, hv, ?_⟩
    intro p hp
    rcases List.mem_cons.mp hp with h3 | h3
    · subst h3; exact hkq
    · exact Nat.lt_trans hkq (h2.2.2 p h3)

theorem lsBounded_mem {α : Type} {l : NList α} (h : lsBounded l = true) :
    ∀ p ∈ l, p.1 < KB ∧ ntBounded p.2 = true := by
  induction l with
  | nil => simp
  | cons q t ih =>
    obtain ⟨k, v⟩ := q
    rw [lsBounded] at h
    simp only [Bool.and_eq_true, decide_eq_true_eq] at h
    intro p hp
    rcases List.mem_cons.mp hp with h3 | h3
    · subst h3; exact ⟨h.1.1, h.1.2⟩
    · exact ih h.2 p h3

theorem lsOK_mem {α : Type} {d : Nat} {l : NList α} (h : lsOK d l = true) :
    ∀ p ∈ l, ntOK d p.2 = true := by
  induction l with
  | nil => simp
  | cons q t ih =>
    rw [lsOK] at h
    simp only [Bool.and_eq_true] at h
    intro p hp
    rcases List.mem_cons.mp hp with h3 | h3
    · subst h3; exact h.1
    · exact ih h.2 p h3

theorem findKey_mem {α : Type} {l : NList α} {key : Nat} {v : NodeVal α}
    (h : findKey l key = some v) : (key, v) ∈ l := by
  induction l with
  | nil => simp [findKey] at h
  | cons q t ih =>
    obtain ⟨k, w⟩ := q
    rw [findKey] at h
    by_cases h1 : k < key
    · rw [if_pos h1] at h
      exact List.mem_cons_of_mem _ (ih h)
    · rw [if_neg h1] at h
      by_cases h2 : k = key
      · rw [if_pos h2] at h
        subst h2
        simp only [Option.some_inj] at h
        subst h
        exact List.mem_cons_self _ _
      · rw [if_neg h2] at h
        exact absurd h (by simp)

theorem skipBelow_lsSorted {α : Type} (off : Nat) {l : NList α}
    (h : lsSorted l = true) : lsSorted (skipBelow off l) = true := by
  induction l with
  | nil => simpa [skipBelow] using h
  | cons q t ih =>
    obtain ⟨k, v⟩ := q
    rw [skipBelow]
    by_cases hk : k < off
    · rw [if_pos hk]
      exact ih (lsSorted_cons h).1
    · rw [if_neg hk]
      exact h

theorem skipBelow_lsBounded {α : Type} (off : Nat) {l : NList α}
    (h : lsBounded l = true) : lsBounded (skipBelow off l) = true := by
  induction l with
  | nil => simpa [skipBelow] using h
  | cons q t ih =>
    obtain ⟨k, v⟩ := q
    rw [skipBelow]
    rw [lsBounded] at h
    simp only [Bool.and_eq_true] at h
    by_cases hk : k < off
    · rw [if_pos hk]
      exact ih h.2
    · rw [if_neg hk]
      rw [lsBounded]
      simp only [Bool.and_eq_true]
      exact ⟨h.1, h.2⟩

theorem skipBelow_lsOK {α : Type} (off : Nat) {d : Nat} {l : NList α}
    (h : lsOK d l = true) : lsOK d (skipBelow off l) = true := by
  induction l with
  | nil => simpa [skipBelow] using h
  | cons q t ih =>
    obtain ⟨k, v⟩ := q
    rw [skipBelow]
    rw [lsOK] at h
    simp only [Bool.and_eq_true] at h
    by_cases hk : k < off
    · rw [if_pos hk]
      exact ih h.2
    · rw [if_neg hk]
      rw [lsOK]
      simp only [Bool.and_eq_true]
      exact ⟨h.1, h.2⟩

theorem skipBelow_low {α : Type} (off : Nat) {l : NList α}
    (h : lsSorted l = true) : ∀ p ∈ skipBelow off l, off ≤ p.1 := by
  induction l with
  | nil => simp [skipBelow]
  | cons q t ih =>
    obtain ⟨k, v⟩ := q
    rw [skipBelow]
    by_cases hk : k < off
    · rw [if_pos hk]
      exact ih (lsSorted_cons h).1
    · rw [if_neg hk]
      intro p hp
      rcases List.mem_cons.mp hp with h3 | h3
      · subst h3; omega
      · have := (lsSorted_cons h).2.2 p h3
        omega

theorem trimHigh_cases {β : Type} (off sh : Nat) (l : List (Nat × β)) :
    trimHigh off sh l = l ∨ trimHigh off sh l = [] := by
  cases l with
  | nil => left; rfl
  | cons q t =>
    obtain ⟨k, v⟩ := q
    rw [trimHigh]
    by_cases hc : sh ≤ wsub k off
    · right; rw [if_pos hc]
    · left; rw [if_neg hc]

theorem eachIdxLoop_spec {α γ : Type} (emptyY : List Nat → List γ)
    (presY : NodeVal α → List Nat → List γ) (o : Nat) :
    ∀ (m s : Nat) (curr : NList α) (stack : List Nat),
      lsSorted curr = true → (∀ p ∈ curr, p.1 < SZ) →
      (∀ p ∈ curr, o + s ≤ p.1) →
      eachIdxLoop emptyY presY o (List.range' s m) curr stack =
        (List.range' s m).flatMap (fun i =>
          match findKey curr (o + i) with
          | some v => presY v (stack ++ [i])
          | none => emptyY (stack ++ [i])) := by
  intro m
  induction m with
  | zero =>
    intro s curr stack h1 h2 h3
    simp [List.range', eachIdxLoop]
  | succ m ih =>
    intro s curr stack hsort hb hlow
    rw [List.range'_succ]
    cases curr with
    | nil =>
      rw [eachIdxLoop]
      rw [ih (s + 1) [] stack (by simp [lsSorted]) (by simp) (by simp)]
      rw [List.flatMap_cons]
      rw [show findKey ([] : NList α) (o + s) = none from rfl]
    | cons q t =>
      obtain ⟨k, v⟩ := q
      have hk_low : o + s ≤ k := hlow (k, v) (by simp)
      have hk_sz : k < SZ := hb (k, v) (by simp)
      have hw : wsub k o = k - o := wsub_of_le (by omega) hk_sz
      have hsplit := lsSorted_cons hsort
      rw [eachIdxLoop]
      by_cases hcase : s < wsub k o
      · rw [if_pos hcase]
        rw [hw] at hcase
        have hlow2 : ∀ p ∈ (k, v) :: t, o + (s + 1) ≤ p.1 := by
          intro p hp
          rcases List.mem_cons.mp hp with h3 | h3
          · subst h3; simp; omega
          · have := hsplit.2.2 p h3
            omega
        rw [ih (s + 1) ((k, v) :: t) stack hsort hb hlow2]
        rw [List.flatMap_cons]
        have hfk : findKey ((k, v) :: t) (o + s) = none := by
          rw [findKey, if_neg (by omega), if_neg (by omega)]
        rw [hfk]
      · rw [if_neg hcase]
        rw [hw] at hcase
        have hkeq : k = o + s := by omega
        have hlowt : ∀ p ∈ t, o + (s + 1) ≤ p.1 := by
          intro p hp
          have := hsplit.2.2 p hp
          omega
        rw [ih (s + 1) t stack hsplit.1 (fun p hp => hb p (List.mem_cons_of_mem _ hp))
          hlowt]
        rw [List.flatMap_cons]
        have hfk : findKey ((k, v) :: t) (o + s) = some v := by
          rw [findKey, if_neg (by omega), if_pos hkeq]
        rw [hfk]
        congr 1
        apply List.flatMap_congr
        intro i hi
        have his : s + 1 ≤ i := (List.mem_range'_1.mp hi).1
        rw [findKey, if_pos (by omega)]

theorem flatMap_single {γ δ : Type} (xs : List γ) (g : γ → δ) :
    (xs.flatMap fun x => [g x]) = xs.map g := by
  induction xs with
  | nil => simp
  | cons a t ih => simp_all

theorem each_empty_spec {α : Type} (S : RecData α) :
    ∀ (rec : Nat) (stack : List Nat),
      each_empty_with_indices_r S rec stack =
        (allTuples (shapeList S rec)).map (fun t => (S.init, stack ++ t)) := by
  intro rec
  induction rec with
  | zero =>
    intro stack
    rw [each_empty_with_indices_r, shapeList_zero]
    have h1 : allTuples [S.shp 0] = (List.range (S.shp 0)).map (fun i => [i]) := by
      rw [allTuples]
      rw [show allTuples [] = [[]] from rfl]
      simp only [List.map_cons, List.map_nil]
      exact flatMap_single _ _
    rw [h1, List.map_map]
    rfl
  | succ n ih =>
    intro stack
    rw [each_empty_with_indices_r, shapeList_succ, allTuples, List.map_flatMap]
    apply List.flatMap_congr
    intro i hi
    rw [ih (stack ++ [i]), List.map_map]
    apply List.map_congr_left
    intro t ht
    simp [Function.comp, List.append_assoc]

theorem findKey_skipBelow {α : Type} (o key : Nat) (l : NList α) (hk : o ≤ key) :
    findKey (skipBelow o l) key = findKey l key := by
  induction l with
  | nil => rfl
  | cons q t ih =>
    obtain ⟨k, v⟩ := q
    rw [skipBelow]
    by_cases hko : k < o
    · rw [if_pos hko, ih, findKey, if_pos (by omega)]
    · rw [if_neg hko]

theorem findKey_trimHigh {α : Type} (o sh key : Nat) (m : NList α) (hkey : key < o + sh)
    (hlow : ∀ p ∈ m, o ≤ p.1) (hb : ∀ p ∈ m, p.1 < SZ) :
    findKey (trimHigh o sh m) key = findKey m key := by
  cases m with
  | nil => rfl
  | cons q t =>
    obtain ⟨k, v⟩ := q
    have hklow : o ≤ k := hlow (k, v) (by simp)
    have hksz : k < SZ := hb (k, v) (by simp)
    have hw : wsub k o = k - o := wsub_of_le hklow hksz
    rw [trimHigh]
    by_cases hc : sh ≤ wsub k o
    · rw [if_pos hc]
      rw [hw] at hc
      have hnone : findKey ((k, v) :: t) key = none := by
        rw [findKey, if_neg (by omega), if_neg (by omega)]
      rw [hnone]
      rfl
    · rw [if_neg hc]

theorem lsSorted_mem_nt {α : Type} {l : NList α} (h : lsSorted l = true) :
    ∀ p ∈ l, ntSorted p.2 = true := by
  induction l with
  | nil => simp
  | cons q t ih =>
    obtain ⟨k, v⟩ := q
    intro p hp
    rcases List.mem_cons.mp hp with h3 | h3
    · subst h3; exact (lsSorted_cons h).2.1
    · exact ih (lsSorted_cons h).1 p h3

theorem allTuples_single (n : Nat) :
    allTuples [n] = (List.range n).map (fun i => [i]) := by
  rw [allTuples]
  rw [show allTuples [] = [[]] from rfl]
  simp only [List.map_cons, List.map_nil]
  exact flatMap_single _ _

theorem entryTrim_lsSorted {α : Type} (o sh : Nat) {l : NList α}
    (h : lsSorted l = true) : lsSorted (entryTrim o sh l) = true := by
  unfold entryTrim
  rcases trimHigh_cases o sh (skipBelow o l) with hc | hc <;> rw [hc]
  · exact skipBelow_lsSorted o h
  · simp [lsSorted]

theorem entryTrim_sz {α : Type} (o sh : Nat) {l : NList α}
    (h : lsBounded l = true) : ∀ p ∈ entryTrim o sh l, p.1 < SZ := by
  unfold entryTrim
  rcases trimHigh_cases o sh (skipBelow o l) with hc | hc <;> rw [hc]
  · intro p hp
    have h2 := lsBounded_mem (skipBelow_lsBounded o h) p hp
    have : KB < SZ := by simp [KB, SZ]
    omega
  · simp

theorem entryTrim_low {α : Type} (o sh : Nat) {l : NList α}
    (h : lsSorted l = true) : ∀ p ∈ entryTrim o sh l, o + 0 ≤ p.1 := by
  unfold entryTrim
  rcases trimHigh_cases o sh (skipBelow o l) with hc | hc <;> rw [hc]
  · intro p hp
    have := skipBelow_low o h p hp
    omega
  · simp

theorem findKey_entryTrim {α : Type} (o sh key : Nat) {l : NList α}
    (hkey : o ≤ key) (hkey2 : key < o + sh) (hsort : lsSorted l = true)
    (hb : lsBounded l = true) :
    findKey (entryTrim o sh l) key = findKey l key := by
  unfold entryTrim
  rw [findKey_trimHigh o sh key _ hkey2 (skipBelow_low o hsort)]
  · exact findKey_skipBelow o key l hkey
  · intro p hp
    have h2 := lsBounded_mem (skipBelow_lsBounded o hb) p hp
    have : KB < SZ := by simp [KB, SZ]
    omega

theorem each_with_indices_spec {α : Type} (S : RecData α) :
    ∀ (rec : Nat) (l : NList α) (stack : List Nat),
      lsSorted l = true → lsBounded l = true → lsOK rec l = true →
      each_with_indices_r S rec l stack =
        (allTuples (shapeList S rec)).map
          (fun t => (lookupT S rec l t, stack ++ t)) := by
  intro rec
  induction rec with
  | zero =>
    intro l stack hsort hb hok
    rw [each_with_indices_r]
    rw [List.range_eq_range']
    rw [eachIdxLoop_spec _ _ (S.off 0) (S.shp 0) 0 _ stack
      (entryTrim_lsSorted _ _ hsort) (entryTrim_sz _ _ hb) (entryTrim_low _ _ hsort)]
    rw [shapeList_zero, allTuples_single, List.map_map]
    rw [← flatMap_single (List.range (S.shp 0))]
    rw [← List.range_eq_range']
    apply List.flatMap_congr
    intro i hi
    have hisn : i < S.shp 0 := List.mem_range.mp hi
    rw [findKey_entryTrim (S.off 0) (S.shp 0) (S.off 0 + i) (by omega) (by omega)
      hsort hb]
    simp only [Function.comp]
    rw [lookupT]
    rw [show ((([i] : List Nat)).getD 0 0) = i from rfl]
    cases hfk : findKey l (S.off 0 + i) with
    | none => rfl
    | some v => cases v <;> rfl
  | succ n ih =>
    intro l stack hsort hb hok
    rw [each_with_indices_r]
    rw [List.range_eq_range']
    rw [eachIdxLoop_spec _ _ (S.off (n + 1)) (S.shp (n + 1)) 0 _ stack
      (entryTrim_lsSorted _ _ hsort) (entryTrim_sz _ _ hb) (entryTrim_low _ _ hsort)]
    rw [shapeList_succ, allTuples, List.map_flatMap]
    rw [← List.range_eq_range']
    apply List.flatMap_congr
    intro i hi
    have hisn : i < S.shp (n + 1) := List.mem_range.mp hi
    rw [findKey_entryTrim (S.off (n + 1)) (S.shp (n + 1)) (S.off (n + 1) + i)
      (by omega) (by omega) hsort hb]
    cases hfk : findKey l (S.off (n + 1) + i) with
    | none =>
      rw [each_empty_spec S n (stack ++ [i]), List.map_map]
      apply List.map_congr_left
      intro t ht
      simp only [Function.comp]
      rw [lookupT]
      rw [show ((i :: t : List Nat).getD 0 0) = i from rfl]
      rw [hfk]
      simp [List.append_assoc]
    | some v =>
      have hmem := findKey_mem hfk
      cases v with
      | scal a =>
        have := lsOK_mem hok _ hmem
        simp [ntOK] at this
      | sub sl =>
        have hsl_sort : lsSorted sl = true := by
          have h2 := lsSorted_mem_nt hsort _ hmem
          simpa [ntSorted] using h2
        have hsl_b : lsBounded sl = true := by
          have h2 := (lsBounded_mem hb _ hmem).2
          simpa [ntBounded] using h2
        have hsl_ok : lsOK n sl = true := by
          have h2 := lsOK_mem hok _ hmem
          simpa [ntOK] using h2
        simp only [ih sl (stack ++ [i]) hsl_sort hsl_b hsl_ok, List.map_map]
        apply List.map_congr_left
        intro t ht
        simp only [Function.comp]
        rw [lookupT]
        rw [show ((i :: t : List Nat).getD 0 0) = i from rfl]
        rw [hfk]
        simp [List.append_assoc]

theorem map_getD_range (L : List Nat) :
    (List.range L.length).map (fun i => L.getD i 0) = L := by
  induction L with
  | nil => simp
  | cons a t ih =>
    rw [show (a :: t).length = t.length + 1 from rfl, List.range_succ_eq_map]
    simp only [List.map_cons, List.map_map]
    congr 1

theorem shapeList_ofStorage {α : Type} (s : LStor α) (hdim : 1 ≤ s.dim)
    (hshape : s.shape.length = s.dim) :
    shapeList (RecData.ofStorage s) (s.dim - 1) = s.shape := by
  unfold shapeList
  have h1 : s.dim - 1 + 1 = s.dim := by omega
  rw [h1]
  have h2 : ∀ i ∈ List.range s.dim,
      (RecData.ofStorage s).shp (s.dim - 1 - i) = s.shape.getD i 0 := by
    intro i hi
    have hilt : i < s.dim := List.mem_range.mp hi
    unfold RecData.ofStorage RecData.shp
    simp only
    congr 1
    omega
  rw [List.map_congr_left h2]
  rw [← hshape]
  exact map_getD_range s.shape

/-- C7: the dense each-with-indices iterator visits every index tuple of
the reference shape exactly once, in lexicographic order (the order of
`allTuples`), yielding the stored value at the tuple when one exists and
the view's default otherwise. -/
theorem each_dense_visits_every_tuple {α : Type} (s : LStor α)
    (hdim : 1 ≤ s.dim) (hshape : s.shape.length = s.dim)
    (hsort : lsSorted s.rows = true) (hb : lsBounded s.rows = true)
    (hok : lsOK (s.dim - 1) s.rows = true) :
    nm_list_each_with_indices_dense s =
      (allTuples s.shape).map
        (fun t => (lookupT (RecData.ofStorage s) (s.dim - 1) s.rows t, t)) := by
  unfold nm_list_each_with_indices_dense
  rw [each_with_indices_spec (RecData.ofStorage s) (s.dim - 1) s.rows [] hsort hb hok]
  rw [shapeList_ofStorage s hdim hshape]
  simp

/-- Witness for C7, scenario S6 of the spec: a 1-D storage of length 3
with default 5 and index 1 set to 9 yields (5,0), (9,1), (5,2) in that
order. -/
theorem each_dense_visits_every_tuple_witness :
    nm_list_each_with_indices_dense
        (⟨1, Dtype.int64, [3], [0], [(1, NodeVal.scal (9 : Int))], 5, true⟩ : LStor Int)
      = [(5, [0]), (9, [1]), (5, [2])] := by
  rw [each_dense_visits_every_tuple _ (by decide) (by decide) (by decide) (by decide)
    (by decide)]
  decide

/-- Spec-side description of slice-copy (section 4.5 of the spec): keep
exactly the in-range nodes, re-keyed by subtracting the effective offset
at each depth (`o`), recursively.  `o` and `sh` are indexed by recursion
depth like the `RecurseData` accessors. -/
def shiftCopy {α : Type} (o sh : Nat → Nat) : Nat → NList α → NList α
  | 0 => fun l => l.filterMap (fun p =>
      if o 0 ≤ p.1 ∧ p.1 < o 0 + sh 0 then some (p.1 - o 0, p.2) else none)
  | rec + 1 => fun l => l.filterMap (fun p =>
      if o (rec + 1) ≤ p.1 ∧ p.1 < o (rec + 1) + sh (rec + 1) then
        some (p.1 - o (rec + 1),
          match p.2 with
          | .sub sl => .sub (shiftCopy o sh rec sl)
          | .scal a => .scal a)
      else none)

/-- Effective offset of a slice-copy at recursion depth `r` (the source
indexes its arrays by axis `n`; depth `r` corresponds to axis
`D - 1 - r`). -/
def copyOff (offv coords : List Nat) (D r : Nat) : Nat :=
  offv.getD (D - 1 - r) 0 + coords.getD (D - 1 - r) 0

/-- Slice lengths of a slice-copy, indexed by recursion depth. -/
def copyShape (lengths : List Nat) (D r : Nat) : Nat :=
  lengths.getD (D - 1 - r) 0

theorem list_insert_append {β : Type} (acc : List (Nat × β)) (k : Nat) (v : β)
    (h : ∀ p ∈ acc, p.1 < k) : list_insert acc k v = acc ++ [(k, v)] := by
  induction acc with
  | nil => rfl
  | cons q t ih =>
    obtain ⟨k2, v2⟩ := q
    have hk2 : k2 < k := h (k2, v2) (by simp)
    rw [list_insert, if_neg (by omega), if_neg (by omega)]
    rw [ih (fun p hp => h p (List.mem_cons_of_mem _ hp))]
    simp

theorem slice_copy_nil {α : Type} (offv coords lengths : List Nat) (D n : Nat)
    (acc : NList α) : slice_copy offv coords lengths D n [] acc = acc := by
  rw [slice_copy]

theorem slice_copy_cons {α : Type} (offv coords lengths : List Nat) (D n k : Nat)
    (v : NodeVal α) (t acc : NList α) :
    slice_copy offv coords lengths D n ((k, v) :: t) acc =
      slice_copy offv coords lengths D n t
        (if (0 : Int) ≤ (k : Int) - ((offv.getD n 0 + coords.getD n 0 : Nat) : Int) ∧
            (k : Int) - ((offv.getD n 0 + coords.getD n 0 : Nat) : Int) <
              ((lengths.getD n 0 : Nat) : Int) then
          if D - n > 1 then
            match v with
            | .sub sl =>
              list_insert acc
                ((k : Int) - ((offv.getD n 0 + coords.getD n 0 : Nat) : Int)).toNat
                (.sub (slice_copy offv coords lengths D (n + 1) sl []))
            | .scal _ => acc
          else
            list_insert acc
              ((k : Int) - ((offv.getD n 0 + coords.getD n 0 : Nat) : Int)).toNat v
        else acc) := by
  rw [slice_copy.eq_def]

theorem slice_copy_eq_shiftCopy {α : Type} (offv coords lengths : List Nat) (D : Nat) :
    ∀ (rec : Nat) (n : Nat), n + rec + 1 = D →
      ∀ (l acc : NList α), lsSorted l = true → lsOK rec l = true →
      (∀ p ∈ acc, ∀ q ∈ l,
        (offv.getD n 0 + coords.getD n 0 ≤ q.1 ∧
          q.1 < offv.getD n 0 + coords.getD n 0 + lengths.getD n 0) →
        p.1 < q.1 - (offv.getD n 0 + coords.getD n 0)) →
      slice_copy offv coords lengths D n l acc =
        acc ++ shiftCopy (copyOff offv coords D) (copyShape lengths D) rec l := by
  intro rec
  induction rec with
  | zero =>
    intro n hD l
    have hidx : D - 1 - 0 = n := by omega
    induction l with
    | nil =>
      intro acc hsort hok hacc
      rw [slice_copy_nil]
      simp [shiftCopy]
    | cons q t ihl =>
      intro acc hsort hok hacc
      obtain ⟨k, v⟩ := q
      rw [slice_copy_cons]
      rw [shiftCopy]
      simp only [List.filterMap_cons]
      have hcov : copyOff offv coords D 0 = offv.getD n 0 + coords.getD n 0 := by
        unfold copyOff
        rw [hidx]
      have hcsh : copyShape lengths D 0 = lengths.getD n 0 := by
        unfold copyShape
        rw [hidx]
      have hsplit := lsSorted_cons hsort
      rw [lsOK] at hok
      simp only [Bool.and_eq_true] at hok
      by_cases hin : offv.getD n 0 + coords.getD n 0 ≤ k ∧
          k < offv.getD n 0 + coords.getD n 0 + lengths.getD n 0
      · rw [if_pos (show (0 : Int) ≤ (k : Int) -
            ((offv.getD n 0 + coords.getD n 0 : Nat) : Int) ∧
            (k : Int) - ((offv.getD n 0 + coords.getD n 0 : Nat) : Int) <
            ((lengths.getD n 0 : Nat) : Int) from by
          constructor <;> [omega; omega])]
        rw [if_neg (show ¬ D - n > 1 from by omega)]
        rw [hcov, hcsh, if_pos hin]
        have htn : ((k : Int) - ((offv.getD n 0 + coords.getD n 0 : Nat) : Int)).toNat =
            k - (offv.getD n 0 + coords.getD n 0) := by omega
        rw [htn]
        rw [list_insert_append acc _ v (fun p hp => by
          have := hacc p hp (k, v) (by simp) hin
          omega)]
        rw [ihl _ hsplit.1 hok.2 ?_]
        · rw [List.append_assoc]
          congr 1
          rw [shiftCopy]
          simp only [hcov, hcsh]
          rfl
        · intro p hp q2 hq2 hq2in
          rcases List.mem_append.mp hp with h3 | h3
          · exact hacc p h3 q2 (List.mem_cons_of_mem _ hq2) hq2in
          · simp only [List.mem_singleton] at h3
            subst h3
            have := hsplit.2.2 q2 hq2
            simp only
            omega
      · rw [if_neg (show ¬ ((0 : Int) ≤ (k : Int) -
            ((offv.getD n 0 + coords.getD n 0 : Nat) : Int) ∧
            (k : Int) - ((offv.getD n 0 + coords.getD n 0 : Nat) : Int) <
            ((lengths.getD n 0 : Nat) : Int)) from by omega)]
        rw [hcov, hcsh, if_neg hin]
        rw [ihl _ hsplit.1 hok.2 (fun p hp q2 hq2 hq2in =>
          hacc p hp q2 (List.mem_cons_of_mem _ hq2) hq2in)]
        congr 1
        rw [shiftCopy]
        simp only [hcov, hcsh]
  | succ m ihrec =>
    intro n hD l
    have hidx : D - 1 - (m + 1) = n := by omega
    induction l with
    | nil =>
      intro acc hsort hok hacc
      rw [slice_copy_nil]
      simp [shiftCopy]
    | cons q t ihl =>
      intro acc hsort hok hacc
      obtain ⟨k, v⟩ := q
      rw [slice_copy_cons]
      rw [shiftCopy]
      simp only [List.filterMap_cons]
      have hcov : copyOff offv coords D (m + 1) = offv.getD n 0 + coords.getD n 0 := by
        unfold copyOff
        rw [hidx]
      have hcsh : copyShape lengths D (m + 1) = lengths.getD n 0 := by
        unfold copyShape
        rw [hidx]
      have hsplit := lsSorted_cons hsort
      rw [lsOK] at hok
      simp only [Bool.and_eq_true] at hok
      by_cases hin : offv.getD n 0 + coords.getD n 0 ≤ k ∧
          k < offv.getD n 0 + coords.getD n 0 + lengths.getD n 0
      · rw [if_pos (show (0 : Int) ≤ (k : Int) -
            ((offv.getD n 0 + coords.getD n 0 : Nat) : Int) ∧
            (k : Int) - ((offv.getD n 0 + coords.getD n 0 : Nat) : Int) <
            ((lengths.getD n 0 : Nat) : Int) from by
          constructor <;> [omega; omega])]
        rw [if_pos (show D - n > 1 from by omega)]
        cases v with
        | scal a =>
          simp [ntOK] at hok
        | sub sl =>
          have hslsort : lsSorted sl = true := by
            simpa [ntSorted] using hsplit.2.1
          have hslok : lsOK m sl = true := by
            simpa [ntOK] using hok.1
          show slice_copy offv coords lengths D n t
              (list_insert acc
                ((k : Int) - ((offv.getD n 0 + coords.getD n 0 : Nat) : Int)).toNat
                (.sub (slice_copy offv coords lengths D (n + 1) sl []))) = _
          rw [ihrec (n + 1) (by omega) sl [] hslsort hslok (by simp)]
          rw [hcov, hcsh, if_pos hin]
          have htn : ((k : Int) - ((offv.getD n 0 + coords.getD n 0 : Nat) : Int)).toNat =
              k - (offv.getD n 0 + coords.getD n 0) := by omega
          rw [htn]
          rw [List.nil_append]
          rw [list_insert_append acc _ _ (fun p hp => by
            have := hacc p hp (k, NodeVal.sub sl) (by simp) hin
            omega)]
          rw [ihl _ hsplit.1 hok.2 ?_]
          · rw [List.append_assoc]
            congr 1
            rw [shiftCopy]
            simp only [hcov, hcsh]
            rfl
          · intro p hp q2 hq2 hq2in
            rcases List.mem_append.mp hp with h3 | h3
            · exact hacc p h3 q2 (List.mem_cons_of_mem _ hq2) hq2in
            · simp only [List.mem_singleton] at h3
              subst h3
              have := hsplit.2.2 q2 hq2
              simp only
              omega
      · rw [if_neg (show ¬ ((0 : Int) ≤ (k : Int) -
            ((offv.getD n 0 + coords.getD n 0 : Nat) : Int) ∧
            (k : Int) - ((offv.getD n 0 + coords.getD n 0 : Nat) : Int) <
            ((lengths.getD n 0 : Nat) : Int)) from by omega)]
        rw [hcov, hcsh, if_neg hin]
        rw [ihl _ hsplit.1 hok.2 (fun p hp q2 hq2 hq2in =>
          hacc p hp q2 (List.mem_cons_of_mem _ hq2) hq2in)]
        congr 1
        rw [shiftCopy]
        simp only [hcov, hcsh]

theorem KB_lt_SZ : KB < SZ := by decide

theorem KB_pos : 0 < KB := by decide

/-- One level of the spec-side slice copy: the nodes whose keys lie in
the window `[o, o + sh)`, re-keyed relative to the window start, with a
payload transformation.  Both depth cases of `shiftCopy` are instances. -/
def shiftAt {α : Type} (o sh : Nat) (sf : NodeVal α → NodeVal α) (l : NList α) : NList α :=
  l.filterMap (fun p => if o ≤ p.1 ∧ p.1 < o + sh then some (p.1 - o, sf p.2) else none)

theorem shiftCopy_zero {α : Type} (o sh : Nat → Nat) (l : NList α) :
    shiftCopy o sh 0 l = shiftAt (o 0) (sh 0) (fun v => v) l := rfl

theorem shiftCopy_succ {α : Type} (o sh : Nat → Nat) (rec : Nat) (l : NList α) :
    shiftCopy o sh (rec + 1) l =
      shiftAt (o (rec + 1)) (sh (rec + 1))
        (fun v => match v with
          | .sub sl => .sub (shiftCopy o sh rec sl)
          | .scal a => .scal a) l := rfl

theorem skipBelow_zero {β : Type} (l : List (Nat × β)) : skipBelow 0 l = l := by
  cases l with
  | nil => rfl
  | cons q t =>
    obtain ⟨k, v⟩ := q
    rw [skipBelow, if_neg (by omega)]

theorem shiftAt_skipBelow {α : Type} (o sh : Nat) (sf : NodeVal α → NodeVal α)
    (l : NList α) : shiftAt o sh sf (skipBelow o l) = shiftAt o sh sf l := by
  induction l with
  | nil => rfl
  | cons q t ih =>
    obtain ⟨k, v⟩ := q
    rw [skipBelow]
    by_cases hk : k < o
    · rw [if_pos hk, ih]
      simp only [shiftAt, List.filterMap_cons,
        if_neg (show ¬(o ≤ k ∧ k < o + sh) from by omega)]
    · rw [if_neg hk]

theorem shiftAt_keys {α : Type} (o sh : Nat) (sf : NodeVal α → NodeVal α) (l : NList α) :
    ∀ q ∈ shiftAt o sh sf l, q.1 < sh := by
  intro q hq
  rw [shiftAt] at hq
  obtain ⟨p, hp, hf⟩ := List.mem_filterMap.mp hq
  by_cases hc : o ≤ p.1 ∧ p.1 < o + sh
  · rw [if_pos hc] at hf
    obtain ⟨rfl⟩ := hf
    simp only
    omega
  · rw [if_neg hc] at hf
    exact absurd hf (by simp)

theorem trimHigh_of_keys_lt {β : Type} (sh : Nat) (hsh : sh ≤ KB) (x : List (Nat × β))
    (h : ∀ q ∈ x, q.1 < sh) : trimHigh 0 sh x = x := by
  cases x with
  | nil => rfl
  | cons q t =>
    obtain ⟨k, v⟩ := q
    have hk : k < sh := h (k, v) (by simp)
    have hw : wsub k 0 = k :=
      wsub_of_le (Nat.zero_le k) (by have := KB_lt_SZ; omega)
    rw [trimHigh, if_neg (by rw [hw]; omega)]

theorem trimHigh_idem {β : Type} (off sh : Nat) (x : List (Nat × β)) :
    trimHigh off sh (trimHigh off sh x) = trimHigh off sh x := by
  rcases trimHigh_cases off sh x with h | h
  · rw [h]; exact h
  · rw [h]; rfl

/-- Aligned walk of the leaf-depth merge loop: when the right cursor
holds only keys at or above the window start and the left cursor is its
window image, every iteration takes the equal-keys branch, so the loop
reduces to the conjunction of the pairwise comparisons (all assumed
true) and, when no node is in range, the final default comparison
(passed in as `true`). -/
theorem eqleafLoop_walk {α : Type} (cL cR : NodeVal α → Bool)
    (cLR : NodeVal α → NodeVal α → Bool) (sf : NodeVal α → NodeVal α)
    (o sh : Nat) (ho : o < KB) (hsh : sh ≤ KB) :
    ∀ (r : NList α) (c : Bool),
      lsSorted r = true →
      (∀ p ∈ r, o ≤ p.1) → (∀ p ∈ r, p.1 < KB) →
      (∀ p ∈ r, cLR (sf p.2) p.2 = true) →
      eqleafLoop cL cR cLR 0 o sh sh true (shiftAt o sh sf r) (trimHigh o sh r) c =
        true := by
  intro r
  induction r with
  | nil =>
    intro c _ _ _ _
    rw [show shiftAt o sh sf [] = [] from rfl]
    rw [show trimHigh o sh ([] : NList α) = [] from rfl]
    rw [eqleafLoop]
    cases c <;> rfl
  | cons q t ih =>
    intro c hsort hlow hkb hclr
    obtain ⟨k, v⟩ := q
    have hk_lo : o ≤ k := hlow (k, v) (by simp)
    have hk_kb : k < KB := hkb (k, v) (by simp)
    have hk_sz : k < SZ := by have := KB_lt_SZ; omega
    have hw : wsub k o = k - o := wsub_of_le hk_lo hk_sz
    have hsplit := lsSorted_cons hsort
    by_cases hk_hi : k < o + sh
    · have hsc : shiftAt o sh sf ((k, v) :: t) = (k - o, sf v) :: shiftAt o sh sf t := by
        simp only [shiftAt, List.filterMap_cons,
          if_pos (show o ≤ k ∧ k < o + sh from ⟨hk_lo, hk_hi⟩)]
      have htr : trimHigh o sh ((k, v) :: t) = (k, v) :: t := by
        rw [trimHigh, if_neg (by rw [hw]; omega)]
      have hwl : wsub (k - o) 0 = k - o :=
        wsub_of_le (Nat.zero_le _) (by omega)
      rw [hsc, htr, eqleafLoop]
      rw [if_neg (by rw [hwl, hw]; omega), if_neg (by rw [hwl, hw]; omega)]
      rw [hclr (k, v) (by simp)]
      simp only [Bool.true_and]
      rw [trimHigh_of_keys_lt sh hsh _ (shiftAt_keys o sh sf t)]
      rw [trimHigh_idem]
      exact ih true hsplit.1
        (fun p hp => le_trans hk_lo (le_of_lt (hsplit.2.2 p hp)))
        (fun p hp => hkb p (List.mem_cons_of_mem _ hp))
        (fun p hp => hclr p (List.mem_cons_of_mem _ hp))
    · have hsc : shiftAt o sh sf ((k, v) :: t) = [] := by
        simp only [shiftAt, List.filterMap_cons,
          if_neg (show ¬(o ≤ k ∧ k < o + sh) from by omega)]
        rw [List.filterMap_eq_nil_iff]
        intro p hp
        rw [if_neg]
        have := hsplit.2.2 p hp
        omega
      have htr : trimHigh o sh ((k, v) :: t) = [] := by
        rw [trimHigh, if_pos (by rw [hw]; omega)]
      rw [hsc, htr, eqleafLoop]
      cases c <;> rfl

/-- Aligned walk of the non-leaf merge loop, mirror of the leaf case
(the per-iteration cursor trimming is single here). -/
theorem eqnodeLoop_walk {α : Type} (cL cR : NodeVal α → Bool)
    (cLR : NodeVal α → NodeVal α → Bool) (sf : NodeVal α → NodeVal α)
    (o sh : Nat) (ho : o < KB) (hsh : sh ≤ KB) :
    ∀ (r : NList α) (c : Bool),
      lsSorted r = true →
      (∀ p ∈ r, o ≤ p.1) → (∀ p ∈ r, p.1 < KB) →
      (∀ p ∈ r, cLR (sf p.2) p.2 = true) →
      eqnodeLoop cL cR cLR 0 o sh sh true (shiftAt o sh sf r) (trimHigh o sh r) c =
        true := by
  intro r
  induction r with
  | nil =>
    intro c _ _ _ _
    rw [show shiftAt o sh sf [] = [] from rfl]
    rw [show trimHigh o sh ([] : NList α) = [] from rfl]
    rw [eqnodeLoop]
    cases c <;> rfl
  | cons q t ih =>
    intro c hsort hlow hkb hclr
    obtain ⟨k, v⟩ := q
    have hk_lo : o ≤ k := hlow (k, v) (by simp)
    have hk_kb : k < KB := hkb (k, v) (by simp)
    have hk_sz : k < SZ := by have := KB_lt_SZ; omega
    have hw : wsub k o = k - o := wsub_of_le hk_lo hk_sz
    have hsplit := lsSorted_cons hsort
    by_cases hk_hi : k < o + sh
    · have hsc : shiftAt o sh sf ((k, v) :: t) = (k - o, sf v) :: shiftAt o sh sf t := by
        simp only [shiftAt, List.filterMap_cons,
          if_pos (show o ≤ k ∧ k < o + sh from ⟨hk_lo, hk_hi⟩)]
      have htr : trimHigh o sh ((k, v) :: t) = (k, v) :: t := by
        rw [trimHigh, if_neg (by rw [hw]; omega)]
      have hwl : wsub (k - o) 0 = k - o :=
        wsub_of_le (Nat.zero_le _) (by omega)
      rw [hsc, htr, eqnodeLoop]
      rw [if_neg (by rw [hwl, hw]; omega), if_neg (by rw [hwl, hw]; omega)]
      rw [hclr (k, v) (by simp)]
      simp only [Bool.true_and]
      rw [trimHigh_of_keys_lt sh hsh _ (shiftAt_keys o sh sf t)]
      exact ih true hsplit.1
        (fun p hp => le_trans hk_lo (le_of_lt (hsplit.2.2 p hp)))
        (fun p hp => hkb p (List.mem_cons_of_mem _ hp))
        (fun p hp => hclr p (List.mem_cons_of_mem _ hp))
    · have hsc : shiftAt o sh sf ((k, v) :: t) = [] := by
        simp only [shiftAt, List.filterMap_cons,
          if_neg (show ¬(o ≤ k ∧ k < o + sh) from by omega)]
        rw [List.filterMap_eq_nil_iff]
        intro p hp
        rw [if_neg]
        have := hsplit.2.2 p hp
        omega
      have htr : trimHigh o sh ((k, v) :: t) = [] := by
        rw [trimHigh, if_pos (by rw [hw]; omega)]
      rw [hsc, htr, eqnodeLoop]
      cases c <;> rfl

/-- The recursive equality accepts the window image produced by the
spec-side slice copy against the original list, for matching traversal
data: zero offsets and the same shapes on the left, a reflexive
comparison, and equal defaults. -/
theorem eqeq_r_shiftCopy {α : Type} (ceq ceqBA : α → α → Bool)
    (hceq : ∀ a, ceq a a = true)
    (L R : RecData α)
    (hLoff : ∀ j, L.off j = 0)
    (hshp : ∀ j, L.shp j = R.shp j)
    (hfin : ceq L.init R.init = true)
    (hRoff : ∀ j, R.off j < KB)
    (hRshp : ∀ j, R.shp j ≤ KB) :
    ∀ (rec : Nat) (l : NList α),
      lsSorted l = true → lsOK rec l = true → lsBounded l = true →
      eqeq_r ceq ceqBA L R rec (shiftCopy R.off R.shp rec l) l = true := by
  intro rec
  induction rec with
  | zero =>
    intro l hsort hok hbnd
    rw [eqeq_r]
    rw [hLoff 0, hshp 0, hfin, skipBelow_zero, shiftCopy_zero]
    rw [trimHigh_of_keys_lt (R.shp 0) (hRshp 0) _ (shiftAt_keys _ _ _ _)]
    rw [← shiftAt_skipBelow (R.off 0) (R.shp 0) (fun v => v) l]
    refine eqleafLoop_walk _ _ _ _ (R.off 0) (R.shp 0) (hRoff 0) (hRshp 0)
      (skipBelow (R.off 0) l) false (skipBelow_lsSorted _ hsort)
      (skipBelow_low _ hsort)
      (fun p hp => (lsBounded_mem (skipBelow_lsBounded _ hbnd) p hp).1) ?_
    intro p hp
    have hnt := lsOK_mem (skipBelow_lsOK _ hok) p hp
    cases hv : p.2 with
    | scal a => simpa using hceq a
    | sub sl =>
      rw [hv] at hnt
      simp [ntOK] at hnt
  | succ m ihrec =>
    intro l hsort hok hbnd
    rw [eqeq_r]
    rw [hLoff (m + 1), hshp (m + 1), hfin, skipBelow_zero, shiftCopy_succ]
    rw [trimHigh_of_keys_lt (R.shp (m + 1)) (hRshp (m + 1)) _ (shiftAt_keys _ _ _ _)]
    rw [← shiftAt_skipBelow (R.off (m + 1)) (R.shp (m + 1)) _ l]
    refine eqnodeLoop_walk _ _ _ _ (R.off (m + 1)) (R.shp (m + 1)) (hRoff (m + 1))
      (hRshp (m + 1)) (skipBelow (R.off (m + 1)) l) false
      (skipBelow_lsSorted _ hsort) (skipBelow_low _ hsort)
      (fun p hp => (lsBounded_mem (skipBelow_lsBounded _ hbnd) p hp).1) ?_
    intro p hp
    have hnt := lsOK_mem (skipBelow_lsOK _ hok) p hp
    have hnts := lsSorted_mem_nt (skipBelow_lsSorted _ hsort) p hp
    have hntb := (lsBounded_mem (skipBelow_lsBounded _ hbnd) p hp).2
    cases hv : p.2 with
    | scal a =>
      rw [hv] at hnt
      simp [ntOK] at hnt
    | sub sl =>
      rw [hv] at hnt hnts hntb
      show eqeq_r ceq ceqBA L R m (shiftCopy R.off R.shp m sl) sl = true
      exact ihrec sl (by simpa [ntSorted] using hnts) (by simpa [ntOK] using hnt)
        (by simpa [ntBounded] using hntb)

theorem filterMap_congr_mem {γ δ : Type} (xs : List γ) (f g : γ → Option δ)
    (h : ∀ x ∈ xs, f x = g x) : xs.filterMap f = xs.filterMap g := by
  induction xs with
  | nil => rfl
  | cons a t ih =>
    rw [List.filterMap_cons, List.filterMap_cons, h a (by simp),
      ih (fun x hx => h x (List.mem_cons_of_mem _ hx))]

theorem all_congr_mem {γ : Type} (xs : List γ) (f g : γ → Bool)
    (h : ∀ x ∈ xs, f x = g x) : xs.all f = xs.all g := by
  induction xs with
  | nil => rfl
  | cons a t ih =>
    rw [List.all_cons, List.all_cons, h a (by simp),
      ih (fun x hx => h x (List.mem_cons_of_mem _ hx))]

theorem lsLeaves_nil_eq {α : Type} (path : List Nat) :
    lsLeaves path ([] : NList α) = [] := by
  rw [lsLeaves]

theorem lsLeaves_cons_scal {α : Type} (k : Nat) (a : α) (t : NList α) (path : List Nat) :
    lsLeaves path ((k, .scal a) :: t) = (path ++ [k], a) :: lsLeaves path t := by
  rw [lsLeaves]
  rw [show ntLeaves (path ++ [k]) (NodeVal.scal a) = [(path ++ [k], a)] from by
    rw [ntLeaves]]
  rfl

theorem lsLeaves_cons_sub {α : Type} (k : Nat) (sl t : NList α) (path : List Nat) :
    lsLeaves path ((k, .sub sl) :: t) = lsLeaves (path ++ [k]) sl ++ lsLeaves path t := by
  rw [lsLeaves]
  rw [show ntLeaves (path ++ [k]) (NodeVal.sub sl) = lsLeaves (path ++ [k]) sl from by
    rw [ntLeaves]]

mutual

theorem ntLeaves_path {α : Type} : ∀ (v : NodeVal α) (path : List Nat),
    ntLeaves path v = (ntLeaves [] v).map (fun q => (path ++ q.1, q.2))
  | .scal a, path => by
    rw [ntLeaves, ntLeaves]
    simp
  | .sub l, path => by
    rw [ntLeaves, ntLeaves]
    exact lsLeaves_path l path

theorem lsLeaves_path {α : Type} : ∀ (l : NList α) (path : List Nat),
    lsLeaves path l = (lsLeaves [] l).map (fun q => (path ++ q.1, q.2))
  | [], path => by rw [lsLeaves_nil_eq, lsLeaves_nil_eq]; rfl
  | (k, v) :: t, path => by
    rw [lsLeaves, lsLeaves, List.map_append]
    congr 1
    · rw [ntLeaves_path v (path ++ [k]), ntLeaves_path v ([] ++ [k]), List.map_map]
      apply List.map_congr_left
      intro q hq
      simp [Function.comp, List.append_assoc]
    · exact lsLeaves_path t path

end

/-- Window membership of a key path at recursion depth `rec`: position
`j` of the path (outermost axis first) corresponds to depth `rec - j`. -/
def inW (o sh : Nat → Nat) (rec : Nat) (p : List Nat) : Bool :=
  (List.range (rec + 1)).all (fun j =>
    decide (o (rec - j) ≤ p.getD j 0 ∧ p.getD j 0 < o (rec - j) + sh (rec - j)))

/-- A key path shifted to window coordinates, indexed like `inW`. -/
def shiftP (o : Nat → Nat) (rec : Nat) (p : List Nat) : List Nat :=
  (List.range (rec + 1)).map (fun j => p.getD j 0 - o (rec - j))

theorem inW_zero (o sh : Nat → Nat) (k : Nat) :
    inW o sh 0 [k] = decide (o 0 ≤ k ∧ k < o 0 + sh 0) := by
  simp [inW, List.range_succ]

theorem shiftP_zero (o : Nat → Nat) (k : Nat) : shiftP o 0 [k] = [k - o 0] := by
  simp [shiftP, List.range_succ]

theorem inW_cons (o sh : Nat → Nat) (rec k : Nat) (p : List Nat) :
    inW o sh (rec + 1) (k :: p) =
      (decide (o (rec + 1) ≤ k ∧ k < o (rec + 1) + sh (rec + 1)) && inW o sh rec p) := by
  rw [inW, inW, List.range_succ_eq_map, List.all_cons, List.all_map]
  rw [all_congr_mem (List.range (rec + 1))
      ((fun j => decide (o (rec + 1 - j) ≤ (k :: p).getD j 0 ∧
        (k :: p).getD j 0 < o (rec + 1 - j) + sh (rec + 1 - j))) ∘ Nat.succ)
      (fun j => decide (o (rec - j) ≤ p.getD j 0 ∧
        p.getD j 0 < o (rec - j) + sh (rec - j)))
      (fun j hj => by simp [Function.comp, List.getD_cons_succ, Nat.succ_sub_succ])]
  simp

theorem shiftP_cons (o : Nat → Nat) (rec k : Nat) (p : List Nat) :
    shiftP o (rec + 1) (k :: p) = (k - o (rec + 1)) :: shiftP o rec p := by
  rw [shiftP, shiftP, List.range_succ_eq_map, List.map_cons, List.map_map]
  rw [show List.map ((fun j => (k :: p).getD j 0 - o (rec + 1 - j)) ∘ Nat.succ)
        (List.range (rec + 1))
      = List.map (fun j => p.getD j 0 - o (rec - j)) (List.range (rec + 1)) from
    List.map_congr_left (fun j hj => by
      simp [Function.comp, List.getD_cons_succ, Nat.succ_sub_succ])]
  simp

/-- The leaves of the spec-side slice copy are exactly the in-window
leaves of the source, with their key paths shifted to window
coordinates. -/
theorem shiftCopy_leaves {α : Type} (o sh : Nat → Nat) :
    ∀ (rec : Nat) (l : NList α), lsOK rec l = true →
      lsLeaves [] (shiftCopy o sh rec l) =
        (lsLeaves [] l).filterMap (fun q =>
          if inW o sh rec q.1 then some (shiftP o rec q.1, q.2) else none) := by
  intro rec
  induction rec with
  | zero =>
    intro l hok
    induction l with
    | nil => rfl
    | cons q t ihl =>
      obtain ⟨k, v⟩ := q
      rw [lsOK] at hok
      simp only [Bool.and_eq_true] at hok
      cases v with
      | sub sl => simp [ntOK] at hok
      | scal a =>
        rw [shiftCopy_zero] at ihl ⊢
        rw [lsLeaves_cons_scal k a t []]
        rw [List.filterMap_cons]
        by_cases hin : o 0 ≤ k ∧ k < o 0 + sh 0
        · rw [show shiftAt (o 0) (sh 0) (fun v => v) ((k, NodeVal.scal a) :: t)
              = (k - o 0, NodeVal.scal a) :: shiftAt (o 0) (sh 0) (fun v => v) t from by
            simp only [shiftAt, List.filterMap_cons, if_pos hin]]
          rw [lsLeaves_cons_scal (k - o 0) a _ []]
          rw [ihl hok.2]
          rw [show (if inW o sh 0 (([] : List Nat) ++ [k])
                then some (shiftP o 0 (([] : List Nat) ++ [k]), a) else none)
              = some ([k - o 0], a) from by
            rw [List.nil_append, inW_zero, shiftP_zero,
              if_pos (by simpa using hin)]]
          rfl
        · rw [show shiftAt (o 0) (sh 0) (fun v => v) ((k, NodeVal.scal a) :: t)
              = shiftAt (o 0) (sh 0) (fun v => v) t from by
            simp only [shiftAt, List.filterMap_cons, if_neg hin]]
          rw [ihl hok.2]
          rw [show (if inW o sh 0 (([] : List Nat) ++ [k])
                then some (shiftP o 0 (([] : List Nat) ++ [k]), a) else none)
              = none from by
            rw [List.nil_append, inW_zero, if_neg (by simpa using hin)]]
  | succ m ihrec =>
    intro l hok
    induction l with
    | nil => rfl
    | cons q t ihl =>
      obtain ⟨k, v⟩ := q
      rw [lsOK] at hok
      simp only [Bool.and_eq_true] at hok
      cases v with
      | scal a => simp [ntOK] at hok
      | sub sl =>
        have hslok : lsOK m sl = true := by simpa [ntOK] using hok.1
        rw [shiftCopy_succ] at ihl ⊢
        rw [lsLeaves_cons_sub k sl t []]
        rw [List.filterMap_append]
        by_cases hin : o (m + 1) ≤ k ∧ k < o (m + 1) + sh (m + 1)
        · rw [show shiftAt (o (m + 1)) (sh (m + 1))
                (fun v => match v with
                  | .sub sl2 => .sub (shiftCopy o sh m sl2)
                  | .scal a2 => .scal a2) ((k, NodeVal.sub sl) :: t)
              = (k - o (m + 1), NodeVal.sub (shiftCopy o sh m sl)) ::
                shiftAt (o (m + 1)) (sh (m + 1))
                  (fun v => match v with
                    | .sub sl2 => .sub (shiftCopy o sh m sl2)
                    | .scal a2 => .scal a2) t from by
            simp only [shiftAt, List.filterMap_cons, if_pos hin]]
          rw [lsLeaves_cons_sub (k - o (m + 1)) _ _ []]
          congr 1
          · rw [lsLeaves_path _ (([] : List Nat) ++ [k - o (m + 1)]),
              lsLeaves_path sl (([] : List Nat) ++ [k])]
            rw [ihrec sl hslok]
            rw [List.map_filterMap, List.filterMap_map]
            apply filterMap_congr_mem
            intro q hq
            simp only [Function.comp]
            rw [show ((([] : List Nat) ++ [k]) ++ q.1 : List Nat) = k :: q.1 from by simp]
            rw [inW_cons, shiftP_cons]
            by_cases hq1 : inW o sh m q.1 = true
            · rw [if_pos hq1, if_pos (by simp [hq1, hin])]
              simp
            · rw [if_neg hq1, if_neg (by simp [hq1])]
              rfl
          · exact ihl hok.2
        · rw [show shiftAt (o (m + 1)) (sh (m + 1))
                (fun v => match v with
                  | .sub sl2 => .sub (shiftCopy o sh m sl2)
                  | .scal a2 => .scal a2) ((k, NodeVal.sub sl) :: t)
              = shiftAt (o (m + 1)) (sh (m + 1))
                  (fun v => match v with
                    | .sub sl2 => .sub (shiftCopy o sh m sl2)
                    | .scal a2 => .scal a2) t from by
            simp only [shiftAt, List.filterMap_cons, if_neg hin]]
          rw [show (lsLeaves (([] : List Nat) ++ [k]) sl).filterMap (fun q =>
                if inW o sh (m + 1) q.1 then some (shiftP o (m + 1) q.1, q.2) else none)
              = [] from by
            rw [List.filterMap_eq_nil_iff]
            intro x hx
            obtain ⟨suf, hsuf⟩ := lsLeaves_prefix sl (([] : List Nat) ++ [k]) x hx
            rw [if_neg]
            rw [hsuf, show ((([] : List Nat) ++ [k]) ++ suf : List Nat) = k :: suf from by
              simp, inW_cons]
            simp [hin]]
          rw [ihl hok.2, List.nil_append]

theorem getD_replicate_zero : ∀ (n i : Nat), (List.replicate n (0 : Nat)).getD i 0 = 0 := by
  intro n
  induction n with
  | zero => intro i; simp
  | succ m ih =>
    intro i
    rw [List.replicate_succ]
    cases i with
    | zero => simp
    | succ j =>
      rw [List.getD_cons_succ]
      exact ih j

theorem getD_lt_of_mem {v : List Nat} (h : ∀ x ∈ v, x < KB) : ∀ i, v.getD i 0 < KB := by
  induction v with
  | nil => intro i; simpa using KB_pos
  | cons a t ih =>
    intro i
    cases i with
    | zero => simpa using h a (by simp)
    | succ n =>
      rw [List.getD_cons_succ]
      exact ih (fun x hx => h x (List.mem_cons_of_mem _ hx)) n

theorem ofStorage_offsets {α : Type} (s : LStor α)
    (hown : s.srcSelf = true → s.offset = List.replicate s.dim 0) :
    (RecData.ofStorage s).offsets = s.offset := by
  show (if s.srcSelf then List.replicate s.dim 0 else s.offset) = s.offset
  cases hs : s.srcSelf
  · simp
  · rw [hown hs]
    simp

theorem off_ofStorage {α : Type} (s : LStor α)
    (hown : s.srcSelf = true → s.offset = List.replicate s.dim 0) (x : Nat) :
    (RecData.ofStorage s).off x = s.offset.getD (s.dim - x - 1) 0 := by
  rw [RecData.off, ofStorage_offsets s hown]
  rfl

theorem shp_ofStorage {α : Type} (s : LStor α) (x : Nat) :
    (RecData.ofStorage s).shp x = s.shape.getD (s.dim - x - 1) 0 := by
  rw [RecData.shp]
  rfl

theorem copyOff_ofStorage {α : Type} (s : LStor α)
    (hown : s.srcSelf = true → s.offset = List.replicate s.dim 0) :
    copyOff s.offset (List.replicate s.dim 0) s.dim = (RecData.ofStorage s).off := by
  funext j
  rw [copyOff, off_ofStorage s hown, getD_replicate_zero, Nat.add_zero]
  rw [show s.dim - 1 - j = s.dim - j - 1 from by omega]

theorem copyShape_ofStorage {α : Type} (s : LStor α) :
    copyShape s.shape s.dim = (RecData.ofStorage s).shp := by
  funext j
  rw [copyShape, shp_ofStorage]
  rw [show s.dim - 1 - j = s.dim - j - 1 from by omega]

/-- Spec-side description (spec sections 2 and 4.7): the stored leaves
of `s` in reference coordinates, i.e. the leaves whose key path lies in
the reference window on every axis, with the effective offsets
subtracted axis by axis. -/
def spec_ref_leaves {α : Type} (s : LStor α) : List (List Nat × α) :=
  (lsLeaves [] s.rows).filterMap (fun q =>
    if (List.range s.dim).all (fun i =>
        decide (s.offset.getD i 0 ≤ q.1.getD i 0 ∧
          q.1.getD i 0 < s.offset.getD i 0 + s.shape.getD i 0)) then
      some ((List.range s.dim).map (fun i => q.1.getD i 0 - s.offset.getD i 0), q.2)
    else none)

/-- C5: for every well-formed storage s (owning or view), copy(s) yields
an owning storage (`src == self`) with an all-zero offset vector, the
same default value, the same stored leaves re-expressed in reference
coordinates, and eq(copy(s), s) returns true. -/
theorem copy_owns_same_leaves_and_eq {α : Type} [DecidableEq α] (s : LStor α)
    (hdim : 1 ≤ s.dim)
    (hsort : lsSorted s.rows = true)
    (hok : lsOK (s.dim - 1) s.rows = true)
    (hbnd : lsBounded s.rows = true)
    (hoffb : ∀ x ∈ s.offset, x < KB)
    (hshpb : ∀ x ∈ s.shape, x < KB)
    (hown : s.srcSelf = true → s.offset = List.replicate s.dim 0) :
    (nm_list_storage_copy s).offset = List.replicate s.dim 0 ∧
    (nm_list_storage_copy s).default_val = s.default_val ∧
    (nm_list_storage_copy s).srcSelf = true ∧
    lsLeaves [] (nm_list_storage_copy s).rows = spec_ref_leaves s ∧
    nm_list_storage_eqeq (fun a b => decide (a = b)) (fun b a => decide (b = a))
      (nm_list_storage_copy s) s = true := by
  have hrows : (nm_list_storage_copy s).rows =
      shiftCopy (RecData.ofStorage s).off (RecData.ofStorage s).shp (s.dim - 1)
        s.rows := by
    show slice_copy s.offset (List.replicate s.dim 0) s.shape s.dim 0 s.rows [] = _
    rw [slice_copy_eq_shiftCopy s.offset (List.replicate s.dim 0) s.shape s.dim
      (s.dim - 1) 0 (by omega) s.rows [] hsort hok (by simp)]
    rw [List.nil_append, copyOff_ofStorage s hown, copyShape_ofStorage s]
  have hRoff : ∀ j, (RecData.ofStorage s).off j < KB := by
    intro j
    rw [off_ofStorage s hown]
    exact getD_lt_of_mem hoffb _
  have hRshp : ∀ j, (RecData.ofStorage s).shp j ≤ KB := by
    intro j
    rw [shp_ofStorage]
    exact le_of_lt (getD_lt_of_mem hshpb _)
  have hLoff : ∀ j, (RecData.ofStorage (nm_list_storage_copy s)).off j = 0 := by
    intro j
    show (List.replicate s.dim (0 : Nat)).getD
      ((RecData.ofStorage (nm_list_storage_copy s)).dim - j - 1) 0 = 0
    exact getD_replicate_zero _ _
  have hLshp : ∀ j, (RecData.ofStorage (nm_list_storage_copy s)).shp j =
      (RecData.ofStorage s).shp j := by
    intro j
    rfl
  refine ⟨rfl, rfl, rfl, ?_, ?_⟩
  · rw [hrows, shiftCopy_leaves _ _ _ _ hok, spec_ref_leaves]
    apply filterMap_congr_mem
    intro q hq
    have hcond : inW (RecData.ofStorage s).off (RecData.ofStorage s).shp (s.dim - 1)
        q.1 = (List.range s.dim).all (fun i =>
          decide (s.offset.getD i 0 ≤ q.1.getD i 0 ∧
            q.1.getD i 0 < s.offset.getD i 0 + s.shape.getD i 0)) := by
      rw [inW, show s.dim - 1 + 1 = s.dim from by omega]
      apply all_congr_mem
      intro j hj
      have hjd : j < s.dim := List.mem_range.mp hj
      rw [off_ofStorage s hown, shp_ofStorage]
      rw [show s.dim - (s.dim - 1 - j) - 1 = j from by omega]
    have hpath : shiftP (RecData.ofStorage s).off (s.dim - 1) q.1 =
        (List.range s.dim).map (fun i => q.1.getD i 0 - s.offset.getD i 0) := by
      rw [shiftP, show s.dim - 1 + 1 = s.dim from by omega]
      apply List.map_congr_left
      intro j hj
      have hjd : j < s.dim := List.mem_range.mp hj
      rw [off_ofStorage s hown]
      rw [show s.dim - (s.dim - 1 - j) - 1 = j from by omega]
    rw [hcond, hpath]
  · show eqeq_r (fun a b => decide (a = b)) (fun b a => decide (b = a))
      (RecData.ofStorage (nm_list_storage_copy s)) (RecData.ofStorage s)
      (s.dim - 1) (nm_list_storage_copy s).rows s.rows = true
    rw [hrows]
    exact eqeq_r_shiftCopy (fun a b => decide (a = b)) (fun b a => decide (b = a))
      (fun a => by simp) (RecData.ofStorage (nm_list_storage_copy s))
      (RecData.ofStorage s) hLoff hLshp (decide_eq_true rfl) hRoff hRshp
      (s.dim - 1) s.rows hsort hok hbnd

/-- Concrete input for the copy claim, scenario S5 of the spec: a 2x2
view at offsets (2,2) of a 4x4 owner with one in-window leaf at
absolute coordinates (2,2) and one out-of-window leaf at (1,0). -/
def copyW : LStor Int :=
  ⟨2, Dtype.int64, [2, 2], [2, 2],
    [(1, .sub [(0, .scal 9)]), (2, .sub [(2, .scal 7)])], 0, false⟩

/-- Witness for C5 on the concrete view: the copy owns its data, keeps
the default, holds exactly the in-window leaf at reference coordinates
and compares equal to the view. -/
theorem copy_owns_same_leaves_and_eq_witness :
    (nm_list_storage_copy copyW).offset = List.replicate copyW.dim 0 ∧
    (nm_list_storage_copy copyW).default_val = copyW.default_val ∧
    (nm_list_storage_copy copyW).srcSelf = true ∧
    lsLeaves [] (nm_list_storage_copy copyW).rows = spec_ref_leaves copyW ∧
    nm_list_storage_eqeq (fun a b => decide (a = b)) (fun b a => decide (b = a))
      (nm_list_storage_copy copyW) copyW = true :=
  copy_owns_same_leaves_and_eq copyW (by decide) (by decide) (by decide) (by decide)
    (by decide) (by decide) (fun h => absurd h (by decide))
